import Mathlib

namespace JobsBackend

/-!
Shallow embedding of the bulk-ingestion pipeline of `server.js`
(jobs-backend): the NDJSON import endpoint `POST /api/jobs/ndjson`
(server.js lines 254-333) and the CSV import endpoint `POST /api/import`
(server.js lines 94-250), over a store modelled as a map from the composite
identity key `(company_slug, internal_job_id)` to a row of the `jobs`
table.  Database statement failures, which in the running system depend on
the environment, are modelled by an explicit per-batch failure oracle;
the all-success oracle is the failure-free execution.
-/

/-- Whitespace test used by `jsTrim` (the ASCII whitespace characters
stripped by JavaScript `String.prototype.trim` that occur in this domain). -/
def isWS (c : Char) : Bool := c = ' ' || c = '\t' || c = '\n' || c = '\r'

/-- Model of JavaScript `.trim()`: drop leading and trailing whitespace. -/
def jsTrim (s : String) : String :=
  ⟨((s.data.dropWhile isWS).reverse.dropWhile isWS).reverse⟩

/-- Model of `x || ""` / `x ?? ""` applied to an optional string field. -/
def orEmpty (o : Option String) : String := o.getD ""

/-- Timestamp values stored in the `jobs` table: either the result of
`new Date(s)` for an input string `s`, or the database clock `now()` at an
(abstract, discrete) time `t`. -/
inductive TS
  | ofStr (s : String)
  | now (t : Nat)
deriving DecidableEq, Repr

/-- Models the SQL insert parameter `COALESCE($5, now())` where `$5` is
`r.updated_at ? new Date(r.updated_at) : null` (server.js lines 140 and 145,
275 and 281): a present, truthy (non-empty) string becomes a parsed date;
anything else falls through to the statement time `now()`. -/
def tsParam (u : Option String) (t : Nat) : TS :=
  match u with
  | some s => if s = "" then TS.now t else TS.ofStr s
  | none => TS.now t

/-- One stored row of the `jobs` table (the columns written by the import
endpoints; `payload` is the serialized full incoming record, kept
polymorphic because the NDJSON and CSV paths serialize different record
shapes). -/
structure Row (π : Type) where
  title : Option String
  url : Option String
  updated_at : TS
  payload : π
  created_at : TS
  updated_row_at : TS
deriving DecidableEq, Repr

/-- The composite identity key `(company_slug, internal_job_id)`, the
UNIQUE constraint of the `jobs` table (server.js line 41). -/
abbrev Key := String × String

/-- The `jobs` table: a finite map from identity key to row, modelling the
UNIQUE-keyed table. -/
def Db (π : Type) : Type := Key → Option (Row π)

/-- The empty `jobs` table. -/
def emptyDb {π : Type} : Db π := fun _ => none

/-- Row lookup by identity key. -/
def dbFind {π : Type} (db : Db π) (k : Key) : Option (Row π) := db k

/-- Point update of the table at one identity key. -/
def dbSet {π : Type} (db : Db π) (k : Key) (r : Row π) : Db π :=
  fun k2 => if k2 = k then some r else db k2

/-- One execution of the parameterized upsert statement shared by the two
ingestion endpoints (server.js lines 143-154 and 280-290):

`INSERT INTO jobs (company_slug, internal_job_id, title, url, updated_at, payload)`
`VALUES ($1,$2,$3,$4,COALESCE($5, now()), $6::jsonb)`
`ON CONFLICT (company_slug, internal_job_id)` then, when `INSERT_MODE === "1"`
(upsert mode, here `upsertMode = true`),
`DO UPDATE SET title=EXCLUDED.title, url=EXCLUDED.url,`
`updated_at=COALESCE(EXCLUDED.updated_at, jobs.updated_at),`
`payload=COALESCE(EXCLUDED.payload, jobs.payload), updated_row_at=now()`,
and otherwise `DO NOTHING`.

Since `EXCLUDED.updated_at = COALESCE($5, now())` and
`EXCLUDED.payload = $6::jsonb` are never NULL, the two COALESCEs in the
update branch always take the EXCLUDED value.  A fresh insert fills
`created_at` and `updated_row_at` with their `DEFAULT now()`
(server.js lines 39-40). -/
def applyUpsert {π : Type} (upsertMode : Bool) (t : Nat) (slug id : String)
    (title url : Option String) (updAt : Option String) (pay : π) (db : Db π) : Db π :=
  match dbFind db (slug, id) with
  | none =>
      dbSet db (slug, id)
        ⟨title, url, tsParam updAt t, pay, TS.now t, TS.now t⟩
  | some old =>
      if upsertMode then
        dbSet db (slug, id)
          ⟨title, url, tsParam updAt t, pay, old.created_at, TS.now t⟩
      else db

/-- A JSON object obtained from parsing one NDJSON line: the fields the
handler reads, plus the remaining key/value pairs (which only ever travel
into the serialized `payload`). -/
structure JsonObj where
  company_slug : Option String
  internal_job_id : Option String
  title : Option String
  url : Option String
  updated_at : Option String
  others : List (String × String)
deriving DecidableEq, Repr

/-- Models `(r.company_slug || "").trim()` (server.js lines 133, 267). -/
def recSlug (r : JsonObj) : String := jsTrim (orEmpty r.company_slug)

/-- Models `(r.internal_job_id || "").trim()` (server.js lines 134, 268). -/
def recId (r : JsonObj) : String := jsTrim (orEmpty r.internal_job_id)

/-- The identity key a record writes to. -/
def keyOf (r : JsonObj) : Key := (recSlug r, recId r)

/-- The identity check of the NDJSON insert loop (server.js line 269):
both trimmed identity fields are non-empty. -/
def validRec (r : JsonObj) : Bool :=
  decide (recSlug r ≠ "") && decide (recId r ≠ "")

/-- One NDJSON record's upsert statement (server.js lines 279-290):
`title = r.title ?? null`, `url = r.url ?? null`, payload is
`JSON.stringify(r)`, modelled by the record itself. -/
def upsertObj (mode : Bool) (t : Nat) (db : Db JsonObj) (r : JsonObj) : Db JsonObj :=
  applyUpsert mode t (recSlug r) (recId r) r.title r.url r.updated_at r db

/-- One entry of the `errors` array of the NDJSON handler
(server.js lines 270, 294, 300, 318, 321). -/
inductive Err
  | invalidJson (row : Nat)
  | missingId (r : JsonObj)
  | recError (slug id : String)
  | fatal
deriving DecidableEq, Repr

/-- Failure oracle for one `insertBatch` call: whether the initial `BEGIN`
(or the `pool.connect()` before it) throws, whether the final `COMMIT`
throws, and the positions within the batch whose individual upsert
statement throws.  The running system's statement outcomes depend on the
environment; the oracle makes them an explicit input. -/
structure BatchOracle where
  failBegin : Bool
  failCommit : Bool
  failRec : List Nat
deriving DecidableEq, Repr

/-- The failure-free oracle. -/
def okOracle : BatchOracle := ⟨false, false, []⟩

/-- The per-record loop of the NDJSON `insertBatch` (server.js lines
266-296), started directly after `BEGIN`: `base` is the store at the last
(re)`BEGIN` (the rollback target), `txn` the uncommitted view, `i` the
position within the batch.  An invalid record pushes a missing-identity
error and continues; a failing statement runs `ROLLBACK; BEGIN` — which
discards the uncommitted `txn`, falling back to `base` — pushes a
per-record error and continues; a successful statement applies the upsert
to `txn` and increments the inserted counter.  Returns the final
uncommitted view together with the deltas to the handler's `inserted`
counter and `errors` array. -/
def execRecs (mode : Bool) (t : Nat) (fails : List Nat) :
    List JsonObj → Nat → Db JsonObj → Db JsonObj → Db JsonObj × Nat × List Err
  | [], _, _, txn => (txn, 0, [])
  | r :: rest, i, base, txn =>
    if validRec r then
      if i ∈ fails then
        match execRecs mode t fails rest (i + 1) base base with
        | (d, n, es) => (d, n, Err.recError (recSlug r) (recId r) :: es)
      else
        match execRecs mode t fails rest (i + 1) base (upsertObj mode t txn r) with
        | (d, n, es) => (d, n + 1, es)
    else
      match execRecs mode t fails rest (i + 1) base txn with
      | (d, n, es) => (d, n, Err.missingId r :: es)

/-- The NDJSON `insertBatch` (server.js lines 261-304).  An empty batch
returns immediately; a fatal failure of `BEGIN` leaves the store untouched
and pushes one batch-fatal error without processing any record; otherwise
the per-record loop runs and `COMMIT` either publishes the final
uncommitted view or — on a fatal `COMMIT` failure — rolls it back,
keeping the already-incremented inserted counter and pushing one
batch-fatal error.  Returns the new store and the deltas to `inserted`
and `errors`. -/
def insertBatch (mode : Bool) (t : Nat) (ora : BatchOracle) (recs : List JsonObj)
    (db : Db JsonObj) : Db JsonObj × Nat × List Err :=
  if recs.isEmpty then (db, 0, [])
  else if ora.failBegin then (db, 0, [Err.fatal])
  else
    match execRecs mode t ora.failRec recs 0 db db with
    | (txn, n, es) =>
      if ora.failCommit then (db, n, es ++ [Err.fatal])
      else (txn, n, es)

/-- One line of the NDJSON request body, as seen by the `readline`
interface: a blank line (`line.trim()` empty), a line on which
`JSON.parse` throws, or a line parsing to a JSON object. -/
inductive Line
  | blank
  | bad (excerpt : String)
  | obj (r : JsonObj)
deriving DecidableEq, Repr

/-- Is the line counted by `read` (server.js lines 310-311)? -/
def isNonBlank : Line → Bool
  | Line.blank => false
  | _ => true

/-- The JSON object of a line, when it has one. -/
def objOf : Line → Option JsonObj
  | Line.obj r => some r
  | _ => none

/-- The mutable state of one run of the NDJSON handler: the `read` and
`inserted` counters, the `buffer` and `errors` arrays, the store, the
remaining per-batch failure oracles (an exhausted list means every further
batch is failure-free), and a ghost log of the sizes of the batches handed
to `insertBatch`. -/
structure NdState where
  read : Nat
  buffer : List JsonObj
  db : Db JsonObj
  inserted : Nat
  errors : List Err
  oracles : List BatchOracle
  flushed : List Nat

/-- Take the failure oracle for the next batch. -/
def takeOracle (os : List BatchOracle) : BatchOracle × List BatchOracle :=
  match os with
  | [] => (okOracle, [])
  | o :: rest => (o, rest)

/-- One flush: `insertBatch(buffer.splice(0, buffer.length))`
(server.js lines 316, 326) — the whole buffer is handed over and emptied. -/
def ndFlush (mode : Bool) (t : Nat) (st : NdState) : NdState :=
  match takeOracle st.oracles with
  | (o, os) =>
    match insertBatch mode t o st.buffer st.db with
    | (db2, n, es) =>
      ⟨st.read, [], db2, st.inserted + n, st.errors ++ es, os,
        st.flushed ++ [st.buffer.length]⟩

/-- The `rl.on("line", ...)` handler (server.js lines 309-323): a blank
line returns before `read++`; otherwise `read` is incremented and the line
is parsed — on failure an `invalid JSON` error carrying the current `read`
value is pushed, on success the object joins the buffer, which is flushed
as soon as `buffer.length >= batchSize` (the batch size is the JavaScript
number `bs`). -/
def ndStep (mode : Bool) (t : Nat) (bs : ℚ) (st : NdState) (l : Line) : NdState :=
  match l with
  | Line.blank => st
  | Line.bad _ =>
      { st with read := st.read + 1,
                errors := st.errors ++ [Err.invalidJson (st.read + 1)] }
  | Line.obj r =>
      let st2 := { st with read := st.read + 1, buffer := st.buffer ++ [r] }
      if bs ≤ (st2.buffer.length : ℚ) then ndFlush mode t st2 else st2

/-- The `rl.once("close", ...)` handler (server.js lines 325-328): flush
the remaining partial batch if there is one, then report. -/
def ndClose (mode : Bool) (t : Nat) (st : NdState) : NdState :=
  if st.buffer.isEmpty then st else ndFlush mode t st

/-- Initial state of a run (server.js lines 257-259, 307). -/
def ndInit (db : Db JsonObj) (oras : List BatchOracle) : NdState :=
  ⟨0, [], db, 0, [], oras, []⟩

/-- One complete run of the NDJSON import on a fully consumed stream:
fold the line handler over the input lines, then run the close handler.
`mode` is `INSERT_MODE === "1"` (upsert vs insert-only), `t` the database
clock during the run, `bs` the effective batch size. -/
def ndRun (mode : Bool) (t : Nat) (bs : ℚ) (oras : List BatchOracle)
    (lines : List Line) (db : Db JsonObj) : NdState :=
  ndClose mode t (List.foldl (ndStep mode t bs) (ndInit db oras) lines)

/-- Models `Number(req.query.batch) || 1000` (server.js line 255): the
query parameter is `none` when absent or not parseable as a number
(JavaScript `NaN`), and `some x` for the numeric value `x`; `NaN` and `0`
are falsy and fall through to `1000`. -/
def jsNumOr1000 (p : Option ℚ) : ℚ :=
  match p with
  | none => 1000
  | some x => if x = 0 then 1000 else x

/-- Models `Math.max(a, b)` on real (non-`NaN`) numbers. -/
def jsMax (a b : ℚ) : ℚ := if a ≤ b then b else a

/-- Models `Math.min(a, b)` on real (non-`NaN`) numbers. -/
def jsMin (a b : ℚ) : ℚ := if a ≤ b then a else b

/-- The effective batch size
`Math.max(1, Math.min(5000, Number(req.query.batch) || 1000))`
(server.js line 255). -/
def effBatchSize (p : Option ℚ) : ℚ := jsMax 1 (jsMin 5000 (jsNumOr1000 p))

/-- The `row` positions carried by the `invalid JSON` error entries of a
run, in order. -/
def rowPositions (errs : List Err) : List Nat :=
  errs.filterMap (fun e =>
    match e with
    | Err.invalidJson k => some k
    | _ => none)

/-- Positions of the malformed lines, counted 1-based among the non-blank
lines only (`c` is the count of non-blank lines already seen). -/
def badPosAux : List Line → Nat → List Nat
  | [], _ => []
  | Line.blank :: rest, c => badPosAux rest c
  | Line.bad _ :: rest, c => (c + 1) :: badPosAux rest (c + 1)
  | Line.obj _ :: rest, c => badPosAux rest (c + 1)

/-- Positions of the malformed lines, counted 1-based among the non-blank
lines of the stream. -/
def badNonBlankPositions (lines : List Line) : List Nat := badPosAux lines 0

/-- Positions of the malformed lines, counted 1-based among all lines of
the stream (their actual positions in the input). -/
def badAbsAux : List Line → Nat → List Nat
  | [], _ => []
  | Line.bad _ :: rest, c => (c + 1) :: badAbsAux rest (c + 1)
  | _ :: rest, c => badAbsAux rest (c + 1)

/-- Actual 1-based input positions of the malformed lines. -/
def badAbsolutePositions (lines : List Line) : List Nat := badAbsAux lines 0

/-- The records of a stream that reach an upsert statement: the objects of
the parseable lines that pass the identity check. -/
def validObjs (lines : List Line) : List JsonObj :=
  (lines.filterMap objOf).filter validRec

/-- Number of upsert statements of a batch that execute without error
under a given per-record failure oracle. -/
def succCount (fails : List Nat) : List JsonObj → Nat → Nat
  | [], _ => 0
  | r :: rest, i =>
    (if validRec r ∧ i ∉ fails then 1 else 0) + succCount fails rest (i + 1)

/-- The header names the CSV import maps into a normalized record
(server.js lines 177-210). -/
def CSV_KEYS : List String :=
  ["company_slug", "company_name", "job_id", "internal_job_id", "title",
   "url", "location_text", "departments", "offices", "employment_type",
   "workplace_type", "remote_hint", "shift", "updated_at",
   "requisition_open_date", "job_category", "benefits",
   "travel_requirement", "years_experience", "experience_range",
   "contractor_type", "address", "city", "state", "country", "latitude",
   "longitude", "salary_currency", "salary_min", "salary_max",
   "content_text", "content_html"]

/-- One parsed CSV row: field name to raw cell value, as produced by the
CSV parser. -/
abbrev CsvRow := List (String × String)

/-- The normalized record the CSV import builds from a row: the value of
each of the 32 expected columns, in declaration order (the object literal
of server.js lines 177-210). -/
abbrev NormRec := List (String × Option String)

/-- The normalization helper `get` (server.js lines 122-125):
`(row[key] ?? "").toString().trim()`, with the empty string mapped to
`null`. -/
def csvGet (row : CsvRow) (key : String) : Option String :=
  let v := jsTrim ((row.lookup key).getD "")
  if v = "" then none else some v

/-- Build the normalized record `rec` of server.js lines 177-210. -/
def mkRec (row : CsvRow) : NormRec := CSV_KEYS.map (fun k => (k, csvGet row k))

/-- Field access on a normalized record (`rec.title` and friends). -/
def recField (r : NormRec) (k : String) : Option String := (r.lookup k).join

/-- The CSV row validation of server.js line 215:
`!rec.company_slug || !rec.internal_job_id` rejects the row (a `csvGet`
value is either `null` or a non-empty string, so truthiness is
`isSome`). -/
def csvValidRec (r : NormRec) : Bool :=
  (recField r "company_slug").isSome && (recField r "internal_job_id").isSome

/-- One iteration of the CSV `insertBatch` loop body
(server.js lines 132-154): re-trim the identity fields, throw — modelled
as `none` — when either is missing, otherwise execute the shared upsert
statement.  The serialized payload `JSON.stringify(r)` is the normalized
record itself.  The ghost counter of executed statements rides along. -/
def csvUpsertRec (mode : Bool) (t : Nat) (r : NormRec) (db : Db NormRec) :
    Option (Db NormRec) :=
  let slug := jsTrim (orEmpty (recField r "company_slug"))
  let id := jsTrim (orEmpty (recField r "internal_job_id"))
  if slug = "" ∨ id = "" then none
  else
    some (applyUpsert mode t slug id (recField r "title") (recField r "url")
      (recField r "updated_at") r db)

/-- The CSV `insertBatch` (server.js lines 127-163):
`if (!batch.length || dryRun) return;` — a dry run (or an empty batch)
touches nothing; otherwise every record of the batch is upserted inside
one transaction and a thrown error (`none`) aborts the whole batch and
run.  The second component counts the upsert statements executed. -/
def csvInsertBatch (dryRun mode : Bool) (t : Nat) (recs : List NormRec)
    (db : Db NormRec) : Option (Db NormRec × Nat) :=
  if recs.isEmpty || dryRun then some (db, 0)
  else
    recs.foldlM
      (fun p r =>
        match csvUpsertRec mode t r p.1 with
        | none => none
        | some db2 => some (db2, p.2 + 1))
      (db, 0)

/-- The JSON body sent by the CSV import on success
(server.js lines 239-246): `ok`, `parsed`, `dryRun`, `previewCount`,
`preview` and `insert: dryRun ? "skipped" : "done"` — these are all of its
fields. -/
structure CsvReport where
  parsed : Nat
  dryRun : Bool
  previewCount : Nat
  preview : List NormRec
  insertDone : Bool
deriving DecidableEq, Repr

/-- The rejected-record entries carried by a CSV import response: the
response object of server.js lines 239-246 has no field for rejected rows
or rejection reasons (the invalid-row branch at lines 215-216 only
comments `skip invalid rows but keep a preview`), so a CSV report carries
none. -/
def csvReportedRejections (_r : CsvReport) : List Err := []

/-- Mutable state of one CSV run (server.js lines 109-111, 166-167):
`parsed` counter, the first-two previews, the current batch, the store and
the ghost statement counter. -/
structure CsvState where
  parsed : Nat
  previews : List NormRec
  batch : List NormRec
  db : Db NormRec
  written : Nat

/-- The CSV batch-size constant `BATCH = 1000` (server.js line 167). -/
def CSV_BATCH : Nat := 1000

/-- One iteration of the CSV `readable` loop (server.js lines 173-226):
count the row, normalize it, keep one of the first two previews, skip it
when an identity field is missing, otherwise push it onto the batch and
flush a full batch.  A thrown batch error (`none`) aborts the run. -/
def csvStep (dryRun mode : Bool) (t : Nat) (st : Option CsvState) (row : CsvRow) :
    Option CsvState :=
  match st with
  | none => none
  | some st =>
    let nrec := mkRec row
    let st :=
      { st with parsed := st.parsed + 1,
                previews :=
                  if st.previews.length < 2 then st.previews ++ [nrec]
                  else st.previews }
    if csvValidRec nrec then
      let batch2 := st.batch ++ [nrec]
      if CSV_BATCH ≤ batch2.length then
        match csvInsertBatch dryRun mode t batch2 st.db with
        | none => none
        | some (db2, w) => some { st with batch := [], db := db2,
                                          written := st.written + w }
      else some { st with batch := batch2 }
    else some st

/-- One complete run of the CSV import on a fully parsed document
(server.js lines 165-246): fold the row loop, flush the remaining batch
(`once("end")`, lines 228-235), and produce the success response —
or `none` when a batch error aborted the run (the `catch` of lines
247-249).  Also returns the final store and the ghost count of executed
upsert statements. -/
def csvRun (dryRun mode : Bool) (t : Nat) (rows : List CsvRow)
    (db : Db NormRec) : Option (CsvReport × Db NormRec × Nat) :=
  match List.foldl (csvStep dryRun mode t) (some ⟨0, [], [], db, 0⟩) rows with
  | none => none
  | some st =>
    match csvInsertBatch dryRun mode t st.batch st.db with
    | none => none
    | some (db2, w) =>
      some (⟨st.parsed, dryRun, st.previews.length, st.previews, !dryRun⟩,
        db2, st.written + w)

/-- The number of rows a failure-free non-dry CSV run writes: the rows
passing the identity validation. -/
def csvWouldWrite (rows : List CsvRow) : Nat :=
  ((rows.map mkRec).filter csvValidRec).length

/-- Number of missing-identity rejection entries in an error list. -/
def missingCount (errs : List Err) : Nat :=
  (errs.filter (fun e =>
    match e with
    | Err.missingId _ => true
    | _ => false)).length

/-- A run whose batches suffer no fatal (batch-wide) failure: per-record
statement failures are still allowed. -/
def noFatalOracles (os : List BatchOracle) : Prop :=
  ∀ o ∈ os, o.failBegin = false ∧ o.failCommit = false

/-- The `created_at` value a key holds after an upsert touches it: the
previously stored one if the key existed, else the insert-time `now()`. -/
def createdAt0 {π : Type} (o : Option (Row π)) (t : Nat) : TS :=
  match o with
  | some r => r.created_at
  | none => TS.now t

/-- The last record of a list that writes to identity key `k`. -/
def lastTouch (vs : List JsonObj) (k : Key) : Option JsonObj :=
  (vs.filter (fun v => decide (keyOf v = k))).getLast?

/-- The timestamp-free projection of a stored row: every column except
`updated_at` and `updated_row_at`. -/
def rowCore {π : Type} (r : Row π) : Option String × Option String × π × TS :=
  (r.title, r.url, r.payload, r.created_at)

/-- An optional string whose value, when present, is non-empty and
unchanged by a second trim (true of every `csvGet` output). -/
def TrimStable (o : Option String) : Prop :=
  ∀ v, o = some v → jsTrim v = v ∧ v ≠ ""

/-- A normalized record whose identity fields are trim-stable; every
record built by `mkRec` is. -/
def GoodRec (r : NormRec) : Prop :=
  TrimStable (recField r "company_slug") ∧
    TrimStable (recField r "internal_job_id")

/-- Sample NDJSON record with identity key `("a", "b")` and no other
fields. -/
def sampleA : JsonObj := ⟨some "a", some "b", none, none, none, []⟩

/-- Sample NDJSON record with identity key `("c", "d")`. -/
def sampleB : JsonObj := ⟨some "c", some "d", none, none, none, []⟩

/-- Sample NDJSON record lacking both identity fields. -/
def sampleNoId : JsonObj := ⟨none, none, some "T", none, none, []⟩

/-- Sample stored row with a title, under an arbitrary payload. -/
def sampleOldRow : Row JsonObj :=
  ⟨some "Old", some "u", TS.ofStr "2020", sampleA, TS.now 0, TS.now 0⟩

/-- Sample CSV row carrying both identity fields. -/
def csvRowValid : CsvRow :=
  [("company_slug", "a"), ("internal_job_id", "b"), ("title", "T")]

/-- Sample CSV row lacking both identity fields. -/
def csvRowInvalid : CsvRow := [("title", "T")]

/-! ### Trimming lemmas -/

theorem dropWhile_self {α : Type} (p : α → Bool) (l : List α) :
    (l.dropWhile p).dropWhile p = l.dropWhile p := by
  induction l with
  | nil => rfl
  | cons x xs ih =>
    cases h : p x with
    | true => simp [List.dropWhile_cons, h, ih]
    | false => simp [List.dropWhile_cons, h]

theorem head_dropWhile_false {α : Type} (p : α → Bool) (l : List α) (x : α)
    (xs : List α) (h : l.dropWhile p = x :: xs) : p x = false := by
  induction l with
  | nil => simp at h
  | cons y l ih =>
    rw [List.dropWhile_cons] at h
    cases hy : p y with
    | true => rw [hy] at h; simp at h; exact ih h
    | false => rw [hy] at h; simp at h; rw [← h.1]; exact hy

theorem dropWhile_append_last {α : Type} (p : α → Bool) (l : List α) (x : α)
    (h : p x = false) : ∃ t, List.dropWhile p (l ++ [x]) = t ++ [x] := by
  induction l with
  | nil => exact ⟨[], by simp [List.dropWhile_cons, h]⟩
  | cons y l ih =>
    cases hy : p y with
    | true => simpa [List.dropWhile_cons, hy] using ih
    | false => exact ⟨y :: l, by simp [List.dropWhile_cons, hy]⟩

theorem trim_list_idem {α : Type} (p : α → Bool) (l : List α) :
    (((((((l.dropWhile p).reverse.dropWhile p).reverse).dropWhile
      p).reverse).dropWhile p).reverse)
      = ((l.dropWhile p).reverse.dropWhile p).reverse := by
  cases hm : l.dropWhile p with
  | nil => simp [hm]
  | cons x m2 =>
    have hx : p x = false := head_dropWhile_false p _ _ _ hm
    obtain ⟨tl, htl⟩ := dropWhile_append_last p m2.reverse x hx
    have hA : ((x :: m2).reverse.dropWhile p).reverse = x :: tl.reverse := by
      simp only [List.reverse_cons]
      rw [htl]
      simp
    rw [hA]
    have h1 : (x :: tl.reverse).dropWhile p = x :: tl.reverse := by
      simp [List.dropWhile_cons, hx]
    rw [h1]
    have h3 : (tl ++ [x]).dropWhile p = tl ++ [x] := by
      conv_lhs => rw [← htl]
      rw [dropWhile_self, htl]
    simp only [List.reverse_cons, List.reverse_reverse]
    rw [h3]
    simp

theorem jsTrim_idem (s : String) : jsTrim (jsTrim s) = jsTrim s :=
  congrArg String.mk (trim_list_idem isWS s.data)

/-! ### Store lemmas -/

theorem dbFind_dbSet_self {π : Type} (db : Db π) (k : Key) (r : Row π) :
    dbFind (dbSet db k r) k = some r := by
  simp [dbFind, dbSet]

theorem dbFind_dbSet_ne {π : Type} (db : Db π) (k : Key) (r : Row π)
    (k2 : Key) (h : k2 ≠ k) : dbFind (dbSet db k r) k2 = dbFind db k2 := by
  simp [dbFind, dbSet, h]

theorem dbFind_applyUpsert_ne {π : Type} (mode : Bool) (t : Nat)
    (slug id : String) (title url : Option String) (updAt : Option String)
    (pay : π) (db : Db π) (k2 : Key) (h : k2 ≠ (slug, id)) :
    dbFind (applyUpsert mode t slug id title url updAt pay db) k2 = dbFind db k2 := by
  unfold applyUpsert
  cases hf : dbFind db (slug, id) with
  | none => simp [dbFind_dbSet_ne _ _ _ _ h]
  | some old =>
    cases mode with
    | true => simp [dbFind_dbSet_ne _ _ _ _ h]
    | false => simp

theorem dbFind_upsertObj_ne (mode : Bool) (t : Nat) (db : Db JsonObj)
    (r : JsonObj) (k2 : Key) (h : k2 ≠ keyOf r) :
    dbFind (upsertObj mode t db r) k2 = dbFind db k2 :=
  dbFind_applyUpsert_ne mode t _ _ _ _ _ _ db k2 h

theorem dbFind_upsertObj_self_isSome (mode : Bool) (t : Nat)
    (db : Db JsonObj) (r : JsonObj) :
    (dbFind (upsertObj mode t db r) (keyOf r)).isSome = true := by
  unfold upsertObj applyUpsert keyOf
  cases hf : dbFind db (recSlug r, recId r) with
  | none => simp [dbFind_dbSet_self]
  | some old =>
    cases mode with
    | true => simp [dbFind_dbSet_self]
    | false => simp [hf]

theorem upsertObj_insertOnly_of_present (t : Nat) (db : Db JsonObj)
    (r : JsonObj) (h : (dbFind db (keyOf r)).isSome = true) :
    upsertObj false t db r = db := by
  obtain ⟨old, hold⟩ := Option.isSome_iff_exists.mp h
  unfold keyOf at hold
  simp [upsertObj, applyUpsert, hold]

theorem dbFind_upsertObj_isSome_mono (mode : Bool) (t : Nat)
    (db : Db JsonObj) (r : JsonObj) (k : Key)
    (h : (dbFind db k).isSome = true) :
    (dbFind (upsertObj mode t db r) k).isSome = true := by
  by_cases hk : k = keyOf r
  · rw [hk]; exact dbFind_upsertObj_self_isSome mode t db r
  · rw [dbFind_upsertObj_ne mode t db r k hk]; exact h

theorem foldl_upsert_isSome_mono (mode : Bool) (t : Nat) (vs : List JsonObj)
    (db : Db JsonObj) (k : Key) (h : (dbFind db k).isSome = true) :
    (dbFind (List.foldl (upsertObj mode t) db vs) k).isSome = true := by
  induction vs generalizing db with
  | nil => exact h
  | cons v vs ih =>
    exact ih (upsertObj mode t db v) (dbFind_upsertObj_isSome_mono mode t db v k h)

theorem mem_foldl_upsert_isSome (mode : Bool) (t : Nat) (vs : List JsonObj)
    (db : Db JsonObj) (v : JsonObj) (h : v ∈ vs) :
    (dbFind (List.foldl (upsertObj mode t) db vs) (keyOf v)).isSome = true := by
  induction vs generalizing db with
  | nil => cases h
  | cons w vs ih =>
    rcases List.mem_cons.mp h with h1 | h1
    · subst h1
      exact foldl_upsert_isSome_mono mode t vs _ _
        (dbFind_upsertObj_self_isSome mode t db v)
    · exact ih _ h1

theorem foldl_insertOnly_id (t : Nat) (vs : List JsonObj) (db : Db JsonObj)
    (h : ∀ v ∈ vs, (dbFind db (keyOf v)).isSome = true) :
    List.foldl (upsertObj false t) db vs = db := by
  induction vs with
  | nil => rfl
  | cons v vs ih =>
    have hv : upsertObj false t db v = db :=
      upsertObj_insertOnly_of_present t db v (h v (List.mem_cons_self v vs))
    simp only [List.foldl_cons, hv]
    exact ih (fun w hw => h w (List.mem_cons_of_mem v hw))

/-! ### Batch-execution lemmas -/

theorem validRec_iff (r : JsonObj) :
    validRec r = true ↔ recSlug r ≠ "" ∧ recId r ≠ "" := by
  simp [validRec]

theorem keyOf_ne_of_empty (r : JsonObj) (k : Key) (hv : validRec r = true)
    (hk : k.1 = "" ∨ k.2 = "") : k ≠ keyOf r := by
  obtain ⟨h1, h2⟩ := (validRec_iff r).mp hv
  intro he
  rcases hk with hk | hk
  · exact h1 (by rw [← hk, he]; rfl)
  · exact h2 (by rw [← hk, he]; rfl)

theorem execRecs_account (mode : Bool) (t : Nat) (fails : List Nat)
    (recs : List JsonObj) (i : Nat) (base txn : Db JsonObj) :
    (execRecs mode t fails recs i base txn).2.1
      + (execRecs mode t fails recs i base txn).2.2.length = recs.length := by
  induction recs generalizing i txn with
  | nil => simp [execRecs]
  | cons r rest ih =>
    by_cases hv : validRec r
    · by_cases hf : i ∈ fails
      · rcases hrec : execRecs mode t fails rest (i + 1) base base with ⟨d, n, es⟩
        have ih2 := ih (i + 1) base
        rw [hrec] at ih2
        simp only [execRecs, hv, hf, if_true, hrec]
        simp at ih2 ⊢
        omega
      · rcases hrec : execRecs mode t fails rest (i + 1) base
          (upsertObj mode t txn r) with ⟨d, n, es⟩
        have ih2 := ih (i + 1) (upsertObj mode t txn r)
        rw [hrec] at ih2
        simp only [execRecs, hv, hf, if_true, if_false, hrec]
        simp at ih2 ⊢
        omega
    · rcases hrec : execRecs mode t fails rest (i + 1) base txn with ⟨d, n, es⟩
      have ih2 := ih (i + 1) txn
      rw [hrec] at ih2
      simp only [execRecs, hv, hrec]
      simp at ih2 ⊢
      omega

theorem execRecs_succCount (mode : Bool) (t : Nat) (fails : List Nat)
    (recs : List JsonObj) (i : Nat) (base txn : Db JsonObj) :
    (execRecs mode t fails recs i base txn).2.1 = succCount fails recs i := by
  induction recs generalizing i txn with
  | nil => simp [execRecs, succCount]
  | cons r rest ih =>
    by_cases hv : validRec r
    · by_cases hf : i ∈ fails
      · rcases hrec : execRecs mode t fails rest (i + 1) base base with ⟨d, n, es⟩
        have ih2 := ih (i + 1) base
        rw [hrec] at ih2
        simp only [execRecs, hv, hf, if_true, hrec, succCount]
        simp at ih2 ⊢
        omega
      · rcases hrec : execRecs mode t fails rest (i + 1) base
          (upsertObj mode t txn r) with ⟨d, n, es⟩
        have ih2 := ih (i + 1) (upsertObj mode t txn r)
        rw [hrec] at ih2
        simp only [execRecs, hv, hf, if_true, if_false, hrec, succCount]
        simp at ih2 ⊢
        omega
    · rcases hrec : execRecs mode t fails rest (i + 1) base txn with ⟨d, n, es⟩
      have ih2 := ih (i + 1) txn
      rw [hrec] at ih2
      simp only [execRecs, hv, hrec, succCount]
      simp [hv] at ih2 ⊢
      omega

theorem execRecs_rowPositions (mode : Bool) (t : Nat) (fails : List Nat)
    (recs : List JsonObj) (i : Nat) (base txn : Db JsonObj) :
    rowPositions (execRecs mode t fails recs i base txn).2.2 = [] := by
  induction recs generalizing i txn with
  | nil => simp [execRecs, rowPositions]
  | cons r rest ih =>
    by_cases hv : validRec r
    · by_cases hf : i ∈ fails
      · rcases hrec : execRecs mode t fails rest (i + 1) base base with ⟨d, n, es⟩
        have ih2 := ih (i + 1) base
        rw [hrec] at ih2
        simp only [execRecs, hv, hf, if_true, hrec]
        simpa [rowPositions] using ih2
      · rcases hrec : execRecs mode t fails rest (i + 1) base
          (upsertObj mode t txn r) with ⟨d, n, es⟩
        have ih2 := ih (i + 1) (upsertObj mode t txn r)
        rw [hrec] at ih2
        simp only [execRecs, hv, hf, if_true, if_false, hrec]
        simpa [rowPositions] using ih2
    · rcases hrec : execRecs mode t fails rest (i + 1) base txn with ⟨d, n, es⟩
      have ih2 := ih (i + 1) txn
      rw [hrec] at ih2
      simp only [execRecs, hv, hrec]
      simpa [rowPositions] using ih2

theorem execRecs_missingCount (mode : Bool) (t : Nat) (fails : List Nat)
    (recs : List JsonObj) (i : Nat) (base txn : Db JsonObj) :
    missingCount (execRecs mode t fails recs i base txn).2.2
      = (recs.filter (fun r => !validRec r)).length := by
  induction recs generalizing i txn with
  | nil => simp [execRecs, missingCount]
  | cons r rest ih =>
    by_cases hv : validRec r
    · by_cases hf : i ∈ fails
      · rcases hrec : execRecs mode t fails rest (i + 1) base base with ⟨d, n, es⟩
        have ih2 := ih (i + 1) base
        rw [hrec] at ih2
        simp only [execRecs, hv, hf, if_true, hrec]
        simpa [missingCount, hv] using ih2
      · rcases hrec : execRecs mode t fails rest (i + 1) base
          (upsertObj mode t txn r) with ⟨d, n, es⟩
        have ih2 := ih (i + 1) (upsertObj mode t txn r)
        rw [hrec] at ih2
        simp only [execRecs, hv, hf, if_true, if_false, hrec]
        simpa [missingCount, hv] using ih2
    · rcases hrec : execRecs mode t fails rest (i + 1) base txn with ⟨d, n, es⟩
      have ih2 := ih (i + 1) txn
      rw [hrec] at ih2
      simp only [execRecs, hv, hrec]
      simp [missingCount, hv] at ih2 ⊢
      omega

theorem execRecs_nofail_char (mode : Bool) (t : Nat) (recs : List JsonObj)
    (i : Nat) (base txn : Db JsonObj) :
    execRecs mode t [] recs i base txn
      = (List.foldl (upsertObj mode t) txn (recs.filter validRec),
          (recs.filter validRec).length,
          (recs.filter (fun r => !validRec r)).map Err.missingId) := by
  induction recs generalizing i txn with
  | nil => simp [execRecs]
  | cons r rest ih =>
    by_cases hv : validRec r
    · rw [show execRecs mode t [] (r :: rest) i base txn
          = match execRecs mode t [] rest (i + 1) base
              (upsertObj mode t txn r) with
            | (d, n, es) => (d, n + 1, es) by simp [execRecs, hv]]
      rw [ih (i + 1) (upsertObj mode t txn r)]
      simp [hv]
    · rw [show execRecs mode t [] (r :: rest) i base txn
          = match execRecs mode t [] rest (i + 1) base txn with
            | (d, n, es) => (d, n, Err.missingId r :: es) by simp [execRecs, hv]]
      rw [ih (i + 1) txn]
      simp [hv]

theorem execRecs_irrel (mode : Bool) (t : Nat) (fails : List Nat)
    (recs : List JsonObj) (i : Nat) (base txn : Db JsonObj)
    (h : ∀ j ∈ fails, j < i) :
    execRecs mode t fails recs i base txn = execRecs mode t [] recs i base txn := by
  induction recs generalizing i txn with
  | nil => rfl
  | cons r rest ih =>
    have hf : i ∉ fails := fun hin => Nat.lt_irrefl i (h i hin)
    have hnext : ∀ j ∈ fails, j < i + 1 := fun j hj => Nat.lt_succ_of_lt (h j hj)
    by_cases hv : validRec r
    · simp only [execRecs, hv, hf, if_true, if_false]
      rw [ih (i + 1) (upsertObj mode t txn r) hnext]
      simp [execRecs]
    · simp only [execRecs, hv]
      rw [ih (i + 1) txn hnext]
      simp [execRecs]

theorem execRecs_split (mode : Bool) (t : Nat) (pre : List JsonObj)
    (f : JsonObj) (post : List JsonObj) (i : Nat) (base txn : Db JsonObj)
    (hall : (pre ++ f :: post).all validRec) :
    execRecs mode t [i + pre.length] (pre ++ f :: post) i base txn
      = (List.foldl (upsertObj mode t) base post,
          pre.length + post.length,
          [Err.recError (recSlug f) (recId f)]) := by
  induction pre generalizing i txn with
  | nil =>
    have hf : validRec f := by
      have := (List.all_eq_true.mp hall) f (by simp)
      simpa using this
    have hmem : i ∈ [i + List.length ([] : List JsonObj)] := by simp
    have hpost : post.all validRec := by
      rw [List.all_eq_true] at hall ⊢
      exact fun a ha => hall a (by simp [ha])
    have hirrel : ∀ j ∈ [i + List.length ([] : List JsonObj)], j < i + 1 := by
      simp
    simp only [List.nil_append, execRecs, hf, if_true, hmem]
    rw [execRecs_irrel mode t _ post (i + 1) base base hirrel,
      execRecs_nofail_char]
    have hfilter : post.filter validRec = post :=
      List.filter_eq_self.mpr (fun a ha => (List.all_eq_true.mp hpost) a ha)
    have hfilter2 : post.filter (fun r => !validRec r) = [] := by
      rw [List.filter_eq_nil_iff]
      intro a ha
      simp [(List.all_eq_true.mp hpost) a ha]
    simp [hfilter, hfilter2]
  | cons p pre2 ih =>
    have hp : validRec p := by
      have := (List.all_eq_true.mp hall) p (by simp)
      simpa using this
    have hall2 : (pre2 ++ f :: post).all validRec := by
      rw [List.all_eq_true] at hall ⊢
      exact fun a ha => hall a (by simp at ha ⊢; tauto)
    have hmem : i ∉ [i + List.length (p :: pre2)] := by
      simp
    have hidx : i + List.length (p :: pre2) = (i + 1) + pre2.length := by
      simp
      omega
    simp only [List.cons_append, execRecs, hp, if_true, hmem, if_false]
    rw [hidx]
    simp only [List.append_eq]
    rw [ih (i + 1) (upsertObj mode t txn p) hall2]
    simp only [List.length_cons, Prod.mk.injEq]
    exact ⟨trivial, by omega, trivial⟩

theorem execRecs_empty_key (mode : Bool) (t : Nat) (fails : List Nat)
    (recs : List JsonObj) (i : Nat) (base txn : Db JsonObj) (k : Key)
    (hk : k.1 = "" ∨ k.2 = "") (w : Option (Row JsonObj))
    (hbase : dbFind base k = w) (htxn : dbFind txn k = w) :
    dbFind (execRecs mode t fails recs i base txn).1 k = w := by
  induction recs generalizing i txn with
  | nil => simpa [execRecs] using htxn
  | cons r rest ih =>
    by_cases hv : validRec r
    · by_cases hf : i ∈ fails
      · rcases hrec : execRecs mode t fails rest (i + 1) base base with ⟨d, n, es⟩
        have h2 := ih (i + 1) base hbase
        rw [hrec] at h2
        simp only [execRecs, hv, hf, if_true, hrec]
        exact h2
      · have htxn2 : dbFind (upsertObj mode t txn r) k = w := by
          rw [dbFind_upsertObj_ne mode t txn r k (keyOf_ne_of_empty r k hv hk)]
          exact htxn
        rcases hrec : execRecs mode t fails rest (i + 1) base
          (upsertObj mode t txn r) with ⟨d, n, es⟩
        have h2 := ih (i + 1) (upsertObj mode t txn r) htxn2
        rw [hrec] at h2
        simp only [execRecs, hv, hf, if_true, if_false, hrec]
        exact h2
    · rcases hrec : execRecs mode t fails rest (i + 1) base txn with ⟨d, n, es⟩
      have h2 := ih (i + 1) txn htxn
      rw [hrec] at h2
      simp only [execRecs, hv, hrec]
      exact h2

/-! ### insertBatch lemmas -/

theorem insertBatch_account (mode : Bool) (t : Nat) (o : BatchOracle)
    (recs : List JsonObj) (db : Db JsonObj)
    (hb : o.failBegin = false) (hc : o.failCommit = false) :
    (insertBatch mode t o recs db).2.1
      + (insertBatch mode t o recs db).2.2.length = recs.length := by
  unfold insertBatch
  by_cases he : recs.isEmpty
  · simp [he, List.isEmpty_iff.mp he]
  · rcases hrec : execRecs mode t o.failRec recs 0 db db with ⟨d, n, es⟩
    have h2 := execRecs_account mode t o.failRec recs 0 db db
    rw [hrec] at h2
    simp only at h2
    simp [he, hb, hc, hrec]
    omega

theorem insertBatch_rowPositions (mode : Bool) (t : Nat) (o : BatchOracle)
    (recs : List JsonObj) (db : Db JsonObj) :
    rowPositions (insertBatch mode t o recs db).2.2 = [] := by
  unfold insertBatch
  by_cases he : recs.isEmpty
  · simp [he, rowPositions]
  · by_cases hb : o.failBegin
    · simp [he, hb, rowPositions]
    · rcases hrec : execRecs mode t o.failRec recs 0 db db with ⟨d, n, es⟩
      have h2 := execRecs_rowPositions mode t o.failRec recs 0 db db
      rw [hrec] at h2
      simp only at h2
      by_cases hc : o.failCommit
      · simp only [he, hb, hc, hrec, if_false, if_true, Bool.false_eq_true]
        simp [rowPositions, List.filterMap_append] at h2 ⊢
        simpa [rowPositions] using h2
      · simp [he, hb, hc, hrec]
        exact h2

theorem insertBatch_missingCount (mode : Bool) (t : Nat) (o : BatchOracle)
    (recs : List JsonObj) (db : Db JsonObj)
    (hb : o.failBegin = false) (hc : o.failCommit = false) :
    missingCount (insertBatch mode t o recs db).2.2
      = (recs.filter (fun r => !validRec r)).length := by
  unfold insertBatch
  by_cases he : recs.isEmpty
  · simp [he, List.isEmpty_iff.mp he, missingCount]
  · rcases hrec : execRecs mode t o.failRec recs 0 db db with ⟨d, n, es⟩
    have h2 := execRecs_missingCount mode t o.failRec recs 0 db db
    rw [hrec] at h2
    simp only at h2
    simp [he, hb, hc, hrec]
    exact h2

theorem insertBatch_succCount (mode : Bool) (t : Nat) (o : BatchOracle)
    (recs : List JsonObj) (db : Db JsonObj) :
    (insertBatch mode t o recs db).2.1
      = if o.failBegin then 0 else succCount o.failRec recs 0 := by
  unfold insertBatch
  by_cases he : recs.isEmpty
  · have h0 : recs = [] := List.isEmpty_iff.mp he
    subst h0
    simp [he, succCount]
  · by_cases hb : o.failBegin
    · simp [he, hb]
    · rcases hrec : execRecs mode t o.failRec recs 0 db db with ⟨d, n, es⟩
      have h2 := execRecs_succCount mode t o.failRec recs 0 db db
      rw [hrec] at h2
      simp only at h2
      by_cases hc : o.failCommit
      · simp [he, hb, hc, hrec]
        exact h2
      · simp [he, hb, hc, hrec]
        exact h2

theorem insertBatch_ok_char (mode : Bool) (t : Nat) (recs : List JsonObj)
    (db : Db JsonObj) :
    insertBatch mode t okOracle recs db
      = (List.foldl (upsertObj mode t) db (recs.filter validRec),
          (recs.filter validRec).length,
          (recs.filter (fun r => !validRec r)).map Err.missingId) := by
  unfold insertBatch
  by_cases he : recs.isEmpty
  · have h0 : recs = [] := List.isEmpty_iff.mp he
    subst h0
    simp
  · simp [he, okOracle, execRecs_nofail_char]

theorem insertBatch_empty_key (mode : Bool) (t : Nat) (o : BatchOracle)
    (recs : List JsonObj) (db : Db JsonObj) (k : Key)
    (hk : k.1 = "" ∨ k.2 = "") :
    dbFind (insertBatch mode t o recs db).1 k = dbFind db k := by
  unfold insertBatch
  by_cases he : recs.isEmpty
  · simp [he]
  · by_cases hb : o.failBegin
    · simp [he, hb]
    · rcases hrec : execRecs mode t o.failRec recs 0 db db with ⟨d, n, es⟩
      have h2 := execRecs_empty_key mode t o.failRec recs 0 db db k hk
        (dbFind db k) rfl rfl
      rw [hrec] at h2
      simp only at h2
      by_cases hc : o.failCommit
      · simp [he, hb, hc, hrec]
      · simp [he, hb, hc, hrec]
        exact h2

/-! ### Run-level lemmas for the NDJSON handler -/

theorem ndFlush_ok (mode : Bool) (t : Nat) (st : NdState)
    (h : st.oracles = []) :
    ndFlush mode t st
      = ⟨st.read, [],
          List.foldl (upsertObj mode t) st.db (st.buffer.filter validRec),
          st.inserted + (st.buffer.filter validRec).length,
          st.errors ++ (st.buffer.filter (fun r => !validRec r)).map Err.missingId,
          [], st.flushed ++ [st.buffer.length]⟩ := by
  unfold ndFlush
  rw [h]
  simp [takeOracle, insertBatch_ok_char]

theorem ndFold_ok_char (mode : Bool) (t : Nat) (bs : ℚ) (lines : List Line) :
    ∀ st : NdState, st.oracles = [] →
    (ndClose mode t (List.foldl (ndStep mode t bs) st lines)).db
        = List.foldl (upsertObj mode t) st.db
            ((st.buffer ++ lines.filterMap objOf).filter validRec)
    ∧ (ndClose mode t (List.foldl (ndStep mode t bs) st lines)).inserted
        = st.inserted + ((st.buffer ++ lines.filterMap objOf).filter validRec).length := by
  induction lines with
  | nil =>
    intro st h
    simp only [List.foldl_nil, List.filterMap_nil, List.append_nil]
    unfold ndClose
    by_cases hb : st.buffer.isEmpty
    · have h0 : st.buffer = [] := List.isEmpty_iff.mp hb
      simp [hb, h0]
    · rw [if_neg (by simpa using hb), ndFlush_ok mode t st h]
      exact ⟨rfl, rfl⟩
  | cons l rest ih =>
    intro st h
    cases l with
    | blank =>
      have hstep : ndStep mode t bs st Line.blank = st := rfl
      rw [List.foldl_cons, hstep]
      simpa [objOf] using ih st h
    | bad e =>
      have hstep : ndStep mode t bs st (Line.bad e)
          = { st with read := st.read + 1,
                      errors := st.errors ++ [Err.invalidJson (st.read + 1)] } := rfl
      rw [List.foldl_cons, hstep]
      simpa [objOf] using
        ih { st with read := st.read + 1,
                     errors := st.errors ++ [Err.invalidJson (st.read + 1)] } h
    | obj r =>
      by_cases hfl : bs ≤ (((st.buffer ++ [r]).length : Nat) : ℚ)
      · have hstep : ndStep mode t bs st (Line.obj r)
            = ndFlush mode t { st with read := st.read + 1,
                                       buffer := st.buffer ++ [r] } := by
          simp only [ndStep]
          rw [if_pos hfl]
        have hflush := ndFlush_ok mode t
          { st with read := st.read + 1, buffer := st.buffer ++ [r] } h
        obtain ⟨ihdb, ihins⟩ := ih
          (ndFlush mode t { st with read := st.read + 1,
                                    buffer := st.buffer ++ [r] })
          (by rw [hflush])
        rw [List.foldl_cons, hstep]
        constructor
        · rw [ihdb, hflush]
          dsimp only
          simp only [List.filterMap_cons, objOf, List.nil_append]
          rw [show st.buffer ++ r :: rest.filterMap objOf
              = (st.buffer ++ [r]) ++ rest.filterMap objOf by simp]
          conv_rhs => rw [List.filter_append, List.foldl_append]
        · rw [ihins, hflush]
          dsimp only
          simp only [List.filterMap_cons, objOf, List.nil_append]
          rw [show st.buffer ++ r :: rest.filterMap objOf
              = (st.buffer ++ [r]) ++ rest.filterMap objOf by simp]
          conv_rhs => rw [List.filter_append, List.length_append]
          omega
      · have hstep : ndStep mode t bs st (Line.obj r)
            = { st with read := st.read + 1, buffer := st.buffer ++ [r] } := by
          simp only [ndStep]
          rw [if_neg hfl]
        obtain ⟨ihdb, ihins⟩ := ih
          { st with read := st.read + 1, buffer := st.buffer ++ [r] } h
        dsimp only at ihdb ihins
        rw [List.foldl_cons, hstep]
        constructor
        · rw [ihdb]
          simp only [List.filterMap_cons, objOf]
          rw [show st.buffer ++ r :: rest.filterMap objOf
              = (st.buffer ++ [r]) ++ rest.filterMap objOf by simp]
        · rw [ihins]
          simp only [List.filterMap_cons, objOf]
          rw [show st.buffer ++ r :: rest.filterMap objOf
              = (st.buffer ++ [r]) ++ rest.filterMap objOf by simp]

theorem ndFlush_spec (mode : Bool) (t : Nat) (st : NdState) :
    ∃ (o : BatchOracle) (os : List BatchOracle),
      takeOracle st.oracles = (o, os) ∧
      ndFlush mode t st
        = ⟨st.read, [], (insertBatch mode t o st.buffer st.db).1,
            st.inserted + (insertBatch mode t o st.buffer st.db).2.1,
            st.errors ++ (insertBatch mode t o st.buffer st.db).2.2, os,
            st.flushed ++ [st.buffer.length]⟩ := by
  rcases hto : takeOracle st.oracles with ⟨o, os⟩
  refine ⟨o, os, rfl, ?_⟩
  unfold ndFlush
  rw [hto]

theorem takeOracle_noFatal (os : List BatchOracle) (h : noFatalOracles os) :
    ((takeOracle os).1.failBegin = false ∧ (takeOracle os).1.failCommit = false)
      ∧ noFatalOracles (takeOracle os).2 := by
  cases os with
  | nil =>
    refine ⟨⟨rfl, rfl⟩, ?_⟩
    intro o ho
    cases ho
  | cons o os =>
    refine ⟨h o (List.mem_cons_self o os), ?_⟩
    intro o2 ho2
    exact h o2 (List.mem_cons_of_mem o ho2)

theorem rowPositions_append (a b : List Err) :
    rowPositions (a ++ b) = rowPositions a ++ rowPositions b := by
  simp [rowPositions]

theorem missingCount_append (a b : List Err) :
    missingCount (a ++ b) = missingCount a + missingCount b := by
  simp [missingCount]

theorem ndFold_positions (mode : Bool) (t : Nat) (bs : ℚ) (lines : List Line) :
    ∀ st : NdState,
    (List.foldl (ndStep mode t bs) st lines).read
        = st.read + (lines.filter isNonBlank).length
    ∧ rowPositions (List.foldl (ndStep mode t bs) st lines).errors
        = rowPositions st.errors ++ badPosAux lines st.read := by
  induction lines with
  | nil => intro st; simp [badPosAux]
  | cons l rest ih =>
    intro st
    cases l with
    | blank =>
      have hstep : ndStep mode t bs st Line.blank = st := rfl
      rw [List.foldl_cons, hstep]
      simpa [isNonBlank, badPosAux] using ih st
    | bad e =>
      have hstep : ndStep mode t bs st (Line.bad e)
          = { st with read := st.read + 1,
                      errors := st.errors ++ [Err.invalidJson (st.read + 1)] } := rfl
      rw [List.foldl_cons, hstep]
      obtain ⟨ihread, ihpos⟩ := ih
        { st with read := st.read + 1,
                  errors := st.errors ++ [Err.invalidJson (st.read + 1)] }
      dsimp only at ihread ihpos
      constructor
      · rw [ihread]
        simp [isNonBlank]
        omega
      · rw [ihpos, rowPositions_append]
        simp [badPosAux, rowPositions]
    | obj r =>
      by_cases hfl : bs ≤ (((st.buffer ++ [r]).length : Nat) : ℚ)
      · have hstep : ndStep mode t bs st (Line.obj r)
            = ndFlush mode t { st with read := st.read + 1,
                                       buffer := st.buffer ++ [r] } := by
          simp only [ndStep]
          rw [if_pos hfl]
        obtain ⟨o, os, hto, hflush⟩ := ndFlush_spec mode t
          { st with read := st.read + 1, buffer := st.buffer ++ [r] }
        obtain ⟨ihread, ihpos⟩ := ih
          (ndFlush mode t { st with read := st.read + 1,
                                    buffer := st.buffer ++ [r] })
        rw [List.foldl_cons, hstep]
        constructor
        · rw [ihread, hflush]
          simp [isNonBlank]
          omega
        · rw [ihpos, hflush]
          dsimp only
          rw [rowPositions_append, insertBatch_rowPositions]
          simp [badPosAux]
      · have hstep : ndStep mode t bs st (Line.obj r)
            = { st with read := st.read + 1, buffer := st.buffer ++ [r] } := by
          simp only [ndStep]
          rw [if_neg hfl]
        obtain ⟨ihread, ihpos⟩ := ih
          { st with read := st.read + 1, buffer := st.buffer ++ [r] }
        dsimp only at ihread ihpos
        rw [List.foldl_cons, hstep]
        constructor
        · rw [ihread]
          simp [isNonBlank]
          omega
        · rw [ihpos]
          simp [badPosAux]

theorem ndClose_read_positions (mode : Bool) (t : Nat) (st : NdState) :
    (ndClose mode t st).read = st.read
    ∧ rowPositions (ndClose mode t st).errors = rowPositions st.errors := by
  unfold ndClose
  by_cases hb : st.buffer.isEmpty
  · simp [hb]
  · obtain ⟨o, os, hto, hflush⟩ := ndFlush_spec mode t st
    rw [if_neg (by simpa using hb), hflush]
    exact ⟨rfl, by rw [rowPositions_append, insertBatch_rowPositions]; simp⟩

theorem ndFold_account (mode : Bool) (t : Nat) (bs : ℚ) (lines : List Line) :
    ∀ st : NdState, noFatalOracles st.oracles →
    st.inserted + st.errors.length + st.buffer.length = st.read →
    noFatalOracles (List.foldl (ndStep mode t bs) st lines).oracles
    ∧ (List.foldl (ndStep mode t bs) st lines).inserted
        + (List.foldl (ndStep mode t bs) st lines).errors.length
        + (List.foldl (ndStep mode t bs) st lines).buffer.length
        = (List.foldl (ndStep mode t bs) st lines).read := by
  induction lines with
  | nil => intro st h hacc; exact ⟨h, hacc⟩
  | cons l rest ih =>
    intro st h hacc
    cases l with
    | blank => exact ih st h hacc
    | bad e =>
      refine ih { st with read := st.read + 1,
                          errors := st.errors ++ [Err.invalidJson (st.read + 1)] }
        h ?_
      simp
      omega
    | obj r =>
      by_cases hfl : bs ≤ (((st.buffer ++ [r]).length : Nat) : ℚ)
      · have hstep : ndStep mode t bs st (Line.obj r)
            = ndFlush mode t { st with read := st.read + 1,
                                       buffer := st.buffer ++ [r] } := by
          simp only [ndStep]
          rw [if_pos hfl]
        obtain ⟨o, os, hto, hflush⟩ := ndFlush_spec mode t
          { st with read := st.read + 1, buffer := st.buffer ++ [r] }
        obtain ⟨⟨hob, hoc⟩, hos⟩ := takeOracle_noFatal st.oracles h
        rw [hto] at hob hoc hos
        have hib := insertBatch_account mode t o (st.buffer ++ [r]) st.db hob hoc
        rw [List.foldl_cons, hstep]
        refine ih _ ?_ ?_
        · rw [hflush]
          exact hos
        · rw [hflush]
          dsimp only
          simp only [List.length_append, List.length_nil]
          simp at hacc hib ⊢
          omega
      · have hstep : ndStep mode t bs st (Line.obj r)
            = { st with read := st.read + 1, buffer := st.buffer ++ [r] } := by
          simp only [ndStep]
          rw [if_neg hfl]
        rw [List.foldl_cons, hstep]
        refine ih _ h ?_
        simp
        omega

theorem ndClose_account (mode : Bool) (t : Nat) (st : NdState)
    (h : noFatalOracles st.oracles)
    (hacc : st.inserted + st.errors.length + st.buffer.length = st.read) :
    (ndClose mode t st).inserted + (ndClose mode t st).errors.length
      = (ndClose mode t st).read := by
  unfold ndClose
  by_cases hb : st.buffer.isEmpty
  · have h0 : st.buffer = [] := List.isEmpty_iff.mp hb
    rw [if_pos (by simpa using hb)]
    rw [h0] at hacc
    simpa using hacc
  · obtain ⟨o, os, hto, hflush⟩ := ndFlush_spec mode t st
    obtain ⟨⟨hob, hoc⟩, hos⟩ := takeOracle_noFatal st.oracles h
    rw [hto] at hob hoc
    have hib := insertBatch_account mode t o st.buffer st.db hob hoc
    rw [if_neg (by simpa using hb), hflush]
    dsimp only
    simp only [List.length_append]
    omega

theorem ndFold_empty_key (mode : Bool) (t : Nat) (bs : ℚ) (lines : List Line) :
    ∀ (st : NdState) (k : Key), k.1 = "" ∨ k.2 = "" →
    dbFind (ndClose mode t (List.foldl (ndStep mode t bs) st lines)).db k
      = dbFind st.db k := by
  induction lines with
  | nil =>
    intro st k hk
    rw [List.foldl_nil]
    unfold ndClose
    by_cases hb : st.buffer.isEmpty
    · simp [hb]
    · obtain ⟨o, os, hto, hflush⟩ := ndFlush_spec mode t st
      rw [if_neg (by simpa using hb), hflush]
      exact insertBatch_empty_key mode t o st.buffer st.db k hk
  | cons l rest ih =>
    intro st k hk
    cases l with
    | blank => exact ih st k hk
    | bad e =>
      exact ih { st with read := st.read + 1,
                         errors := st.errors ++ [Err.invalidJson (st.read + 1)] } k hk
    | obj r =>
      by_cases hfl : bs ≤ (((st.buffer ++ [r]).length : Nat) : ℚ)
      · have hstep : ndStep mode t bs st (Line.obj r)
            = ndFlush mode t { st with read := st.read + 1,
                                       buffer := st.buffer ++ [r] } := by
          simp only [ndStep]
          rw [if_pos hfl]
        obtain ⟨o, os, hto, hflush⟩ := ndFlush_spec mode t
          { st with read := st.read + 1, buffer := st.buffer ++ [r] }
        rw [List.foldl_cons, hstep]
        rw [ih (ndFlush mode t { st with read := st.read + 1,
                                         buffer := st.buffer ++ [r] }) k hk]
        rw [hflush]
        exact insertBatch_empty_key mode t o (st.buffer ++ [r]) st.db k hk
      · have hstep : ndStep mode t bs st (Line.obj r)
            = { st with read := st.read + 1, buffer := st.buffer ++ [r] } := by
          simp only [ndStep]
          rw [if_neg hfl]
        rw [List.foldl_cons, hstep]
        exact ih { st with read := st.read + 1, buffer := st.buffer ++ [r] } k hk

theorem ndFold_missing (mode : Bool) (t : Nat) (bs : ℚ) (lines : List Line) :
    ∀ st : NdState, noFatalOracles st.oracles →
    missingCount (ndClose mode t (List.foldl (ndStep mode t bs) st lines)).errors
      = missingCount st.errors
        + ((st.buffer ++ lines.filterMap objOf).filter
            (fun r => !validRec r)).length := by
  induction lines with
  | nil =>
    intro st h
    rw [List.foldl_nil]
    unfold ndClose
    by_cases hb : st.buffer.isEmpty
    · have h0 : st.buffer = [] := List.isEmpty_iff.mp hb
      simp [hb, h0]
    · obtain ⟨o, os, hto, hflush⟩ := ndFlush_spec mode t st
      obtain ⟨⟨hob, hoc⟩, hos⟩ := takeOracle_noFatal st.oracles h
      rw [hto] at hob hoc
      rw [if_neg (by simpa using hb), hflush]
      dsimp only
      rw [missingCount_append,
        insertBatch_missingCount mode t o st.buffer st.db hob hoc]
      simp
  | cons l rest ih =>
    intro st h
    cases l with
    | blank =>
      have hstep : ndStep mode t bs st Line.blank = st := rfl
      rw [List.foldl_cons, hstep]
      simpa [objOf] using ih st h
    | bad e =>
      have hstep : ndStep mode t bs st (Line.bad e)
          = { st with read := st.read + 1,
                      errors := st.errors ++ [Err.invalidJson (st.read + 1)] } := rfl
      rw [List.foldl_cons, hstep]
      have h2 := ih { st with read := st.read + 1,
                              errors := st.errors ++ [Err.invalidJson (st.read + 1)] } h
      dsimp only at h2
      rw [h2, missingCount_append]
      simp [objOf, missingCount]
    | obj r =>
      by_cases hfl : bs ≤ (((st.buffer ++ [r]).length : Nat) : ℚ)
      · have hstep : ndStep mode t bs st (Line.obj r)
            = ndFlush mode t { st with read := st.read + 1,
                                       buffer := st.buffer ++ [r] } := by
          simp only [ndStep]
          rw [if_pos hfl]
        obtain ⟨o, os, hto, hflush⟩ := ndFlush_spec mode t
          { st with read := st.read + 1, buffer := st.buffer ++ [r] }
        obtain ⟨⟨hob, hoc⟩, hos⟩ := takeOracle_noFatal st.oracles h
        rw [hto] at hob hoc hos
        have h2 := ih (ndFlush mode t { st with read := st.read + 1,
                                                buffer := st.buffer ++ [r] })
          (by rw [hflush]; exact hos)
        simp only [hflush] at h2
        rw [List.foldl_cons, hstep]
        simp only [hflush]
        rw [h2]
        rw [missingCount_append,
          insertBatch_missingCount mode t o (st.buffer ++ [r]) st.db hob hoc]
        simp only [List.filterMap_cons, objOf, List.nil_append]
        rw [show st.buffer ++ r :: List.filterMap objOf rest
            = (st.buffer ++ [r]) ++ List.filterMap objOf rest by simp]
        conv_rhs => rw [List.filter_append, List.length_append]
        omega
      · have hstep : ndStep mode t bs st (Line.obj r)
            = { st with read := st.read + 1, buffer := st.buffer ++ [r] } := by
          simp only [ndStep]
          rw [if_neg hfl]
        rw [List.foldl_cons, hstep]
        have h2 := ih { st with read := st.read + 1,
                                buffer := st.buffer ++ [r] } h
        dsimp only at h2
        rw [h2]
        simp only [List.filterMap_cons, objOf]
        rw [show st.buffer ++ r :: rest.filterMap objOf
            = (st.buffer ++ [r]) ++ rest.filterMap objOf by simp]

/-! ### Last-write-wins characterization of the upsert fold -/

theorem getLast?_cons_getD {α : Type} (a : α) (l : List α) :
    (a :: l).getLast? = some (l.getLast?.getD a) := by
  induction l generalizing a with
  | nil => rfl
  | cons b l ih =>
    rw [List.getLast?_cons_cons, ih b]
    simp

theorem lastTouch_cons (v : JsonObj) (vs : List JsonObj) (k : Key) :
    lastTouch (v :: vs) k
      = if keyOf v = k then some ((lastTouch vs k).getD v) else lastTouch vs k := by
  unfold lastTouch
  rw [List.filter_cons]
  by_cases hk : keyOf v = k
  · rw [if_pos (by simpa using hk), if_pos hk, getLast?_cons_getD]
  · rw [if_neg (by simpa using hk), if_neg hk]

theorem dbFind_upsertObj_self (t : Nat) (d : Db JsonObj) (v : JsonObj) :
    dbFind (upsertObj true t d v) (keyOf v)
      = some ⟨v.title, v.url, tsParam v.updated_at t, v,
          createdAt0 (dbFind d (keyOf v)) t, TS.now t⟩ := by
  unfold upsertObj applyUpsert keyOf createdAt0
  cases hf : dbFind d (recSlug v, recId v) with
  | none => simp [dbFind_dbSet_self]
  | some old => simp [dbFind_dbSet_self]

theorem dbFind_foldl_upsert (t : Nat) (vs : List JsonObj) (d : Db JsonObj)
    (k : Key) :
    dbFind (List.foldl (upsertObj true t) d vs) k
      = match lastTouch vs k with
        | none => dbFind d k
        | some v => some ⟨v.title, v.url, tsParam v.updated_at t, v,
            createdAt0 (dbFind d k) t, TS.now t⟩ := by
  induction vs generalizing d k with
  | nil => simp [lastTouch]
  | cons v vs ih =>
    rw [List.foldl_cons, ih (upsertObj true t d v) k, lastTouch_cons]
    by_cases hk : keyOf v = k
    · subst hk
      rw [if_pos rfl]
      cases hlt : lastTouch vs (keyOf v) with
      | none =>
        simp only [Option.getD_none]
        exact dbFind_upsertObj_self t d v
      | some w =>
        simp only [Option.getD_some]
        rw [dbFind_upsertObj_self t d v]
        simp [createdAt0]
    · have hne : dbFind (upsertObj true t d v) k = dbFind d k :=
        dbFind_upsertObj_ne true t d v k (fun he => hk he.symm)
      rw [if_neg hk, hne]

/-! ### Buffer-size bound -/

theorem ndFold_bound (mode : Bool) (t : Nat) (bs : ℚ) (hbs : 0 < bs)
    (lines : List Line) :
    ∀ st : NdState, ((st.buffer.length : ℚ) < bs) →
    (∀ n ∈ st.flushed, (n : ℚ) < bs + 1) →
    (((List.foldl (ndStep mode t bs) st lines).buffer.length : ℚ) < bs
    ∧ ∀ n ∈ (List.foldl (ndStep mode t bs) st lines).flushed,
        (n : ℚ) < bs + 1) := by
  induction lines with
  | nil => intro st h1 h2; exact ⟨h1, h2⟩
  | cons l rest ih =>
    intro st h1 h2
    cases l with
    | blank => exact ih st h1 h2
    | bad e => exact ih _ h1 h2
    | obj r =>
      by_cases hfl : bs ≤ (((st.buffer ++ [r]).length : Nat) : ℚ)
      · have hstep : ndStep mode t bs st (Line.obj r)
            = ndFlush mode t { st with read := st.read + 1,
                                       buffer := st.buffer ++ [r] } := by
          simp only [ndStep]
          rw [if_pos hfl]
        obtain ⟨o, os, hto, hflush⟩ := ndFlush_spec mode t
          { st with read := st.read + 1, buffer := st.buffer ++ [r] }
        rw [List.foldl_cons, hstep]
        refine ih _ ?_ ?_
        · rw [hflush]
          simpa using hbs
        · rw [hflush]
          dsimp only
          intro n hn
          rcases List.mem_append.mp hn with hn | hn
          · exact h2 n hn
          · have hn2 : n = (st.buffer ++ [r]).length := by simpa using hn
            subst hn2
            have hlen : ((st.buffer ++ [r]).length : ℚ)
                = (st.buffer.length : ℚ) + 1 := by
              push_cast [List.length_append, List.length_singleton]
              ring
            rw [hlen]
            linarith
      · have hstep : ndStep mode t bs st (Line.obj r)
            = { st with read := st.read + 1, buffer := st.buffer ++ [r] } := by
          simp only [ndStep]
          rw [if_neg hfl]
        rw [List.foldl_cons, hstep]
        exact ih _ (lt_of_not_le hfl) h2

theorem ndClose_bound (mode : Bool) (t : Nat) (bs : ℚ) (st : NdState)
    (h1 : (st.buffer.length : ℚ) < bs)
    (h2 : ∀ n ∈ st.flushed, (n : ℚ) < bs + 1) :
    ∀ n ∈ (ndClose mode t st).flushed, (n : ℚ) < bs + 1 := by
  unfold ndClose
  by_cases hb : st.buffer.isEmpty
  · rw [if_pos (by simpa using hb)]
    exact h2
  · obtain ⟨o, os, hto, hflush⟩ := ndFlush_spec mode t st
    rw [if_neg (by simpa using hb), hflush]
    dsimp only
    intro n hn
    rcases List.mem_append.mp hn with hn | hn
    · exact h2 n hn
    · have hn2 : n = st.buffer.length := by simpa using hn
      subst hn2
      linarith

/-! ### CSV pipeline lemmas -/

theorem recField_mkRec_slug (row : CsvRow) :
    recField (mkRec row) "company_slug" = csvGet row "company_slug" := rfl

theorem recField_mkRec_id (row : CsvRow) :
    recField (mkRec row) "internal_job_id" = csvGet row "internal_job_id" := rfl

theorem csvGet_trimStable (row : CsvRow) (k : String) :
    TrimStable (csvGet row k) := by
  intro v hv
  unfold csvGet at hv
  by_cases h : jsTrim ((row.lookup k).getD "") = ""
  · simp [h] at hv
  · simp only [h, if_false] at hv
    rw [← Option.some_inj.mp hv]
    exact ⟨jsTrim_idem _, h⟩

theorem goodRec_mkRec (row : CsvRow) : GoodRec (mkRec row) := by
  constructor
  · rw [recField_mkRec_slug]
    exact csvGet_trimStable row _
  · rw [recField_mkRec_id]
    exact csvGet_trimStable row _

theorem csvUpsertRec_some (mode : Bool) (t : Nat) (r : NormRec)
    (db : Db NormRec) (hval : csvValidRec r = true) (hgood : GoodRec r) :
    ∃ db2, csvUpsertRec mode t r db = some db2 := by
  obtain ⟨hs, hi⟩ := Bool.and_eq_true_iff.mp hval
  obtain ⟨v1, hv1⟩ := Option.isSome_iff_exists.mp hs
  obtain ⟨v2, hv2⟩ := Option.isSome_iff_exists.mp hi
  obtain ⟨ht1, hne1⟩ := hgood.1 v1 hv1
  obtain ⟨ht2, hne2⟩ := hgood.2 v2 hv2
  unfold csvUpsertRec
  rw [hv1, hv2]
  simp only [orEmpty, Option.getD_some, ht1, ht2]
  rw [if_neg (by simp [hne1, hne2])]
  exact ⟨_, rfl⟩

theorem csvUpsertRec_empty_key (mode : Bool) (t : Nat) (r : NormRec)
    (db db2 : Db NormRec) (k : Key) (hk : k.1 = "" ∨ k.2 = "")
    (h : csvUpsertRec mode t r db = some db2) :
    dbFind db2 k = dbFind db k := by
  unfold csvUpsertRec at h
  by_cases hif : jsTrim (orEmpty (recField r "company_slug")) = ""
      ∨ jsTrim (orEmpty (recField r "internal_job_id")) = ""
  · rw [if_pos hif] at h
    cases h
  · rw [if_neg hif] at h
    push_neg at hif
    have hdb2 := Option.some_inj.mp h
    rw [← hdb2]
    apply dbFind_applyUpsert_ne
    intro he
    rcases hk with hk | hk
    · exact hif.1 (by rw [← hk, he])
    · exact hif.2 (by rw [← hk, he])

theorem csvBatch_fold_some (mode : Bool) (t : Nat) (recs : List NormRec) :
    ∀ (db : Db NormRec) (c : Nat),
    (∀ r ∈ recs, csvValidRec r = true ∧ GoodRec r) →
    ∃ db2, List.foldlM
      (fun p r =>
        match csvUpsertRec mode t r p.1 with
        | none => none
        | some db3 => some (db3, p.2 + 1))
      (db, c) recs = some (db2, c + recs.length) := by
  induction recs with
  | nil => intro db c _; exact ⟨db, by simp⟩
  | cons r rest ih =>
    intro db c h
    obtain ⟨db2, hdb2⟩ := csvUpsertRec_some mode t r db
      (h r (List.mem_cons_self r rest)).1 (h r (List.mem_cons_self r rest)).2
    obtain ⟨db3, hdb3⟩ := ih db2 (c + 1)
      (fun r2 hr2 => h r2 (List.mem_cons_of_mem r hr2))
    refine ⟨db3, ?_⟩
    rw [List.foldlM_cons, hdb2]
    simp only [Option.bind_eq_bind, Option.some_bind]
    rw [hdb3]
    simp only [List.length_cons]
    congr 2
    omega

theorem csvInsertBatch_nonDry (mode : Bool) (t : Nat) (recs : List NormRec)
    (db : Db NormRec) (h : ∀ r ∈ recs, csvValidRec r = true ∧ GoodRec r) :
    ∃ db2, csvInsertBatch false mode t recs db = some (db2, recs.length) := by
  unfold csvInsertBatch
  by_cases he : recs.isEmpty
  · have h0 : recs = [] := List.isEmpty_iff.mp he
    subst h0
    exact ⟨db, by simp⟩
  · obtain ⟨db2, hdb2⟩ := csvBatch_fold_some mode t recs db 0 h
    refine ⟨db2, ?_⟩
    rw [if_neg (by simp [he])]
    rw [hdb2]
    simp

theorem csvFoldM_empty_key (mode : Bool) (t : Nat) (recs : List NormRec)
    (k : Key) (hk : k.1 = "" ∨ k.2 = "") :
    ∀ (db : Db NormRec) (c : Nat) (db2 : Db NormRec) (w : Nat),
    List.foldlM
      (fun p r =>
        match csvUpsertRec mode t r p.1 with
        | none => none
        | some db3 => some (db3, p.2 + 1))
      (db, c) recs = some (db2, w) →
    dbFind db2 k = dbFind db k := by
  induction recs with
  | nil =>
    intro db c db2 w h
    simp only [List.foldlM_nil] at h
    have h2 := Option.some_inj.mp h
    rw [show db2 = db from congrArg Prod.fst h2.symm]
  | cons r rest ih =>
    intro db c db2 w h
    rw [List.foldlM_cons] at h
    cases hu : csvUpsertRec mode t r db with
    | none =>
      rw [hu] at h
      simp at h
    | some db3 =>
      rw [hu] at h
      simp only [Option.bind_eq_bind, Option.some_bind] at h
      rw [ih db3 (c + 1) db2 w h]
      exact csvUpsertRec_empty_key mode t r db db3 k hk hu

theorem csvInsertBatch_empty_key (dryRun mode : Bool) (t : Nat)
    (recs : List NormRec) (db db2 : Db NormRec) (w : Nat) (k : Key)
    (hk : k.1 = "" ∨ k.2 = "")
    (h : csvInsertBatch dryRun mode t recs db = some (db2, w)) :
    dbFind db2 k = dbFind db k := by
  unfold csvInsertBatch at h
  by_cases he : recs.isEmpty || dryRun
  · rw [if_pos he] at h
    have h2 := Option.some_inj.mp h
    rw [show db2 = db from congrArg Prod.fst h2.symm]
  · rw [if_neg he] at h
    exact csvFoldM_empty_key mode t recs k hk db 0 db2 w h

theorem csvInsertBatch_dry (mode : Bool) (t : Nat) (recs : List NormRec)
    (db : Db NormRec) : csvInsertBatch true mode t recs db = some (db, 0) := by
  unfold csvInsertBatch
  simp

theorem csvStep_dry_fields (mode : Bool) (t : Nat) (st : CsvState)
    (row : CsvRow) :
    ∃ st1, csvStep true mode t (some st) row = some st1
      ∧ st1.db = st.db ∧ st1.written = st.written
      ∧ st1.parsed = st.parsed + 1 := by
  simp only [csvStep]
  by_cases hval : csvValidRec (mkRec row)
  · rw [if_pos hval]
    by_cases hfull : CSV_BATCH ≤ (st.batch ++ [mkRec row]).length
    · rw [if_pos hfull, csvInsertBatch_dry]
      exact ⟨_, rfl, rfl, by simp, rfl⟩
    · rw [if_neg hfull]
      exact ⟨_, rfl, rfl, rfl, rfl⟩
  · rw [if_neg hval]
    exact ⟨_, rfl, rfl, rfl, rfl⟩

theorem csvFold_dry (mode : Bool) (t : Nat) (rows : List CsvRow) :
    ∀ st : CsvState,
    ∃ st2, List.foldl (csvStep true mode t) (some st) rows = some st2
      ∧ st2.db = st.db ∧ st2.written = st.written
      ∧ st2.parsed = st.parsed + rows.length := by
  induction rows with
  | nil => intro st; exact ⟨st, rfl, rfl, rfl, by simp⟩
  | cons row rows ih =>
    intro st
    obtain ⟨st1, hstep, hdb1, hw1, hp1⟩ := csvStep_dry_fields mode t st row
    obtain ⟨st2, hfold, hdb2, hw2, hp2⟩ := ih st1
    refine ⟨st2, ?_, ?_, ?_, ?_⟩
    · rw [List.foldl_cons, hstep]
      exact hfold
    · rw [hdb2, hdb1]
    · rw [hw2, hw1]
    · rw [hp2, hp1]
      simp
      omega

theorem csvRun_dry (mode : Bool) (t : Nat) (rows : List CsvRow)
    (db : Db NormRec) :
    ∃ rep : CsvReport, csvRun true mode t rows db = some (rep, db, 0)
      ∧ rep.parsed = rows.length ∧ rep.dryRun = true
      ∧ rep.insertDone = false := by
  obtain ⟨st2, hfold, hdb, hw, hp⟩ := csvFold_dry mode t rows ⟨0, [], [], db, 0⟩
  unfold csvRun
  rw [hfold]
  dsimp only
  rw [csvInsertBatch_dry]
  refine ⟨⟨st2.parsed, true, st2.previews.length, st2.previews, !true⟩,
    ?_, ?_, rfl, rfl⟩
  · rw [hdb, hw]
  · rw [hp]
    simp

theorem csvStep_nonDry_fields (mode : Bool) (t : Nat) (st : CsvState)
    (row : CsvRow) (hb : ∀ r ∈ st.batch, csvValidRec r = true ∧ GoodRec r) :
    ∃ st1, csvStep false mode t (some st) row = some st1
      ∧ (∀ r ∈ st1.batch, csvValidRec r = true ∧ GoodRec r)
      ∧ st1.written + st1.batch.length
          = st.written + st.batch.length
            + (if csvValidRec (mkRec row) then 1 else 0)
      ∧ st1.parsed = st.parsed + 1
      ∧ (∀ k : Key, k.1 = "" ∨ k.2 = "" → dbFind st1.db k = dbFind st.db k) := by
  simp only [csvStep]
  by_cases hval : csvValidRec (mkRec row)
  · rw [if_pos hval]
    have hb2 : ∀ r ∈ st.batch ++ [mkRec row], csvValidRec r = true ∧ GoodRec r := by
      intro r hr
      rcases List.mem_append.mp hr with hr | hr
      · exact hb r hr
      · have : r = mkRec row := by simpa using hr
        subst this
        exact ⟨hval, goodRec_mkRec row⟩
    by_cases hfull : CSV_BATCH ≤ (st.batch ++ [mkRec row]).length
    · rw [if_pos hfull]
      obtain ⟨db2, hdb2⟩ := csvInsertBatch_nonDry mode t
        (st.batch ++ [mkRec row]) st.db hb2
      rw [hdb2]
      refine ⟨_, rfl, ?_, ?_, rfl, ?_⟩
      · intro r hr
        cases hr
      · simp [hval, List.length_append]
        omega
      · intro k hk
        exact csvInsertBatch_empty_key false mode t _ st.db db2 _ k hk hdb2
    · rw [if_neg hfull]
      refine ⟨_, rfl, hb2, ?_, rfl, fun k _ => rfl⟩
      simp [hval, List.length_append]
      omega
  · rw [if_neg hval]
    refine ⟨_, rfl, hb, ?_, rfl, fun k _ => rfl⟩
    simp [hval]

theorem csvFold_nonDry (mode : Bool) (t : Nat) (rows : List CsvRow) :
    ∀ st : CsvState, (∀ r ∈ st.batch, csvValidRec r = true ∧ GoodRec r) →
    ∃ st2, List.foldl (csvStep false mode t) (some st) rows = some st2
      ∧ (∀ r ∈ st2.batch, csvValidRec r = true ∧ GoodRec r)
      ∧ st2.written + st2.batch.length
          = st.written + st.batch.length
            + ((rows.map mkRec).filter csvValidRec).length
      ∧ st2.parsed = st.parsed + rows.length
      ∧ (∀ k : Key, k.1 = "" ∨ k.2 = "" → dbFind st2.db k = dbFind st.db k) := by
  induction rows with
  | nil =>
    intro st hb
    exact ⟨st, rfl, hb, by simp, by simp, fun k _ => rfl⟩
  | cons row rows ih =>
    intro st hb
    obtain ⟨st1, hstep, hb1, hw1, hp1, hk1⟩ :=
      csvStep_nonDry_fields mode t st row hb
    obtain ⟨st2, hfold, hb2, hw2, hp2, hk2⟩ := ih st1 hb1
    refine ⟨st2, ?_, hb2, ?_, ?_, ?_⟩
    · rw [List.foldl_cons, hstep]
      exact hfold
    · rw [hw2, hw1]
      simp only [List.map_cons, List.filter_cons]
      by_cases hval : csvValidRec (mkRec row)
      · simp [hval]
        omega
      · simp [hval]
    · rw [hp2, hp1]
      simp
      omega
    · intro k hk
      rw [hk2 k hk, hk1 k hk]

theorem csvRun_nonDry (mode : Bool) (t : Nat) (rows : List CsvRow)
    (db : Db NormRec) :
    ∃ (rep : CsvReport) (db2 : Db NormRec),
      csvRun false mode t rows db = some (rep, db2, csvWouldWrite rows)
      ∧ rep.parsed = rows.length
      ∧ (∀ k : Key, k.1 = "" ∨ k.2 = "" → dbFind db2 k = dbFind db k) := by
  obtain ⟨st2, hfold, hb2, hw2, hp2, hk2⟩ :=
    csvFold_nonDry mode t rows ⟨0, [], [], db, 0⟩ (by intro r hr; cases hr)
  obtain ⟨db3, hdb3⟩ := csvInsertBatch_nonDry mode t st2.batch st2.db hb2
  unfold csvRun
  rw [hfold]
  dsimp only
  rw [hdb3]
  dsimp only
  have hcount : st2.written + st2.batch.length = csvWouldWrite rows := by
    rw [hw2]
    simp [csvWouldWrite]
  refine ⟨⟨st2.parsed, false, st2.previews.length, st2.previews, !false⟩,
    db3, ?_, ?_, ?_⟩
  · rw [hcount]
  · rw [hp2]
    simp
  · intro k hk
    rw [csvInsertBatch_empty_key false mode t st2.batch st2.db db3
      st2.batch.length k hk hdb3]
    exact hk2 k hk

/-! ### Claim theorems -/

/-- C1, counterexample: the claim `read == written + rejectedCount` for
every completed NDJSON run fails when a batch suffers a fatal error: a run
of two parseable records whose only batch fails at `BEGIN` completes with
`read = 2`, `inserted = 0` and a single batch-fatal error entry, and
`2 ≠ 0 + 1`. -/
theorem C1_counterexample :
    (ndRun true 0 2 [⟨true, false, []⟩]
      [Line.obj sampleA, Line.obj sampleB] emptyDb).read = 2
    ∧ (ndRun true 0 2 [⟨true, false, []⟩]
        [Line.obj sampleA, Line.obj sampleB] emptyDb).inserted = 0
    ∧ (ndRun true 0 2 [⟨true, false, []⟩]
        [Line.obj sampleA, Line.obj sampleB] emptyDb).errors = [Err.fatal]
    ∧ (2 : Nat) ≠ 0 + 1 := by
  refine ⟨by decide, by decide, by decide, by decide⟩

/-- C1, amended: for every completed NDJSON run in which no batch suffers
a fatal (batch-wide) failure — per-record statement failures are still
allowed — the reported counts satisfy
`read = inserted + errorsCount`: every non-blank line is accounted exactly
once as written or as one error entry. -/
theorem C1_theorem (mode : Bool) (t : Nat) (bs : ℚ) (oras : List BatchOracle)
    (lines : List Line) (db : Db JsonObj) (h : noFatalOracles oras) :
    (ndRun mode t bs oras lines db).inserted
      + (ndRun mode t bs oras lines db).errors.length
      = (ndRun mode t bs oras lines db).read := by
  unfold ndRun
  have h2 := ndFold_account mode t bs lines (ndInit db oras) h (by simp [ndInit])
  exact ndClose_account mode t _ h2.1 h2.2

/-- C1, witness: a concrete no-fatal run with one per-record failure, one
invalid record and one malformed line satisfies the amended accounting. -/
theorem C1_witness :
    noFatalOracles [⟨false, false, [0]⟩]
    ∧ ((ndRun true 0 1000 [⟨false, false, [0]⟩]
          [Line.obj sampleA, Line.obj sampleNoId, Line.bad "x"] emptyDb).inserted
        + (ndRun true 0 1000 [⟨false, false, [0]⟩]
            [Line.obj sampleA, Line.obj sampleNoId, Line.bad "x"] emptyDb).errors.length
        = (ndRun true 0 1000 [⟨false, false, [0]⟩]
            [Line.obj sampleA, Line.obj sampleNoId, Line.bad "x"] emptyDb).read) :=
  ⟨by intro o ho; rw [List.mem_singleton] at ho; subst ho; exact ⟨rfl, rfl⟩,
    C1_theorem true 0 1000 [⟨false, false, [0]⟩]
      [Line.obj sampleA, Line.obj sampleNoId, Line.bad "x"] emptyDb
      (by intro o ho; rw [List.mem_singleton] at ho; subst ho; exact ⟨rfl, rfl⟩)⟩

/-- C2, counterexample: merge-on-missing fails.  A stored row with
`title = some "Old"` upserted (in upsert mode) with a record that omits
`title` ends with `title = none`: the column absent from the incoming
record does NOT keep its previously stored value. -/
theorem C2_counterexample :
    sampleOldRow.title = some "Old"
    ∧ sampleA.title = none
    ∧ dbFind (applyUpsert true 1 "a" "b" sampleA.title sampleA.url
        sampleA.updated_at sampleA (dbSet emptyDb ("a", "b") sampleOldRow))
        ("a", "b")
      = some ⟨none, none, TS.now 1, sampleA, TS.now 0, TS.now 1⟩
    ∧ (none : Option String) ≠ some "Old" := by
  refine ⟨rfl, rfl, by decide, by decide⟩

/-- C2, amended: on conflict in upsert mode the update overwrites `title`,
`url`, `updated_at` and `payload` with the incoming statement values
unconditionally — `title`/`url` become NULL when absent, `updated_at`
falls back to the statement time `now()`, `payload` is replaced whole —
while `created_at` keeps its stored value and `updated_row_at` is set to
`now()`.  Columns absent from the incoming record do not keep their
stored values. -/
theorem C2_theorem {π : Type} (t : Nat) (slug id : String)
    (title url updAt : Option String) (pay : π) (db : Db π) (old : Row π)
    (h : dbFind db (slug, id) = some old) :
    dbFind (applyUpsert true t slug id title url updAt pay db) (slug, id)
      = some ⟨title, url, tsParam updAt t, pay, old.created_at, TS.now t⟩ := by
  unfold applyUpsert
  rw [h]
  simp [dbFind_dbSet_self]

/-- C2, witness: the amended overwrite semantics at a concrete stored row
and incoming record. -/
theorem C2_witness :
    dbFind (dbSet emptyDb ("a", "b") sampleOldRow) ("a", "b") = some sampleOldRow
    ∧ dbFind (applyUpsert true 1 "a" "b" none none none sampleA
        (dbSet emptyDb ("a", "b") sampleOldRow)) ("a", "b")
      = some ⟨none, none, TS.now 1, sampleA, TS.now 0, TS.now 1⟩ :=
  ⟨by decide,
    C2_theorem 1 "a" "b" none none none sampleA
      (dbSet emptyDb ("a", "b") sampleOldRow) sampleOldRow (by decide)⟩

/-- C3, counterexample: a per-record failure does NOT preserve the batch's
earlier successful writes.  In the batch `[sampleA, sampleB]` where the
statement of `sampleB` (position 1) fails, `sampleA`'s statement succeeded
and was counted (`inserted = 1`), the remaining processing continued, but
the recovery `ROLLBACK; BEGIN` discarded `sampleA`'s write: after the
batch the store does not contain key `("a", "b")`. -/
theorem C3_counterexample :
    validRec sampleA = true
    ∧ (insertBatch true 0 ⟨false, false, [1]⟩ [sampleA, sampleB] emptyDb).2.1 = 1
    ∧ (insertBatch true 0 ⟨false, false, [1]⟩ [sampleA, sampleB] emptyDb).2.2
      = [Err.recError "c" "d"]
    ∧ dbFind (insertBatch true 0 ⟨false, false, [1]⟩ [sampleA, sampleB]
        emptyDb).1 ("a", "b") = none := by
  refine ⟨by decide, by decide, by decide, by decide⟩

/-- C3, amended: when the upsert of the record at position `pre.length` of
an all-valid batch `pre ++ f :: post` fails with a per-record error, all
remaining records are still attempted — the batch yields exactly one
per-record error entry and counts all `pre.length + post.length` other
records as inserted — but only the records after the failure are committed:
the final store is the initial store with just `post` applied, the earlier
writes of `pre` having been rolled back (while remaining counted). -/
theorem C3_theorem (mode : Bool) (t : Nat) (pre : List JsonObj) (f : JsonObj)
    (post : List JsonObj) (db : Db JsonObj)
    (hall : (pre ++ f :: post).all validRec) :
    insertBatch mode t ⟨false, false, [pre.length]⟩ (pre ++ f :: post) db
      = (List.foldl (upsertObj mode t) db post, pre.length + post.length,
          [Err.recError (recSlug f) (recId f)]) := by
  unfold insertBatch
  have hne : (pre ++ f :: post).isEmpty = false := by simp
  rw [hne]
  have hsplit := execRecs_split mode t pre f post 0 db db hall
  rw [Nat.zero_add] at hsplit
  simp only [Bool.false_eq_true, if_false, hsplit]

/-- C3, witness: the amended behavior at a concrete three-record batch
whose middle record fails. -/
theorem C3_witness :
    ([sampleA] ++ sampleB :: [sampleA]).all validRec = true
    ∧ insertBatch true 0 ⟨false, false, [1]⟩ ([sampleA] ++ sampleB :: [sampleA])
        emptyDb
      = (List.foldl (upsertObj true 0) emptyDb [sampleA], 1 + 1,
          [Err.recError "c" "d"]) :=
  ⟨by decide,
    C3_theorem true 0 [sampleA] sampleB [sampleA] emptyDb (by decide)⟩

/-- C4, counterexample: in CSV (tabular) mode a row lacking both identity
fields is NOT recorded as rejected.  The run on one such row completes
successfully with `parsed = 1` and the full response
`{ok, parsed, dryRun, previewCount, preview, insert}` — which carries no
rejected count and no reason: the rejection entries reported by a CSV run
are none, contradicting the claim that the record contributes to the
rejected count with a reason. -/
theorem C4_counterexample :
    (csvRun false true 0 [csvRowInvalid] emptyDb).map (fun p => p.1)
      = some ⟨1, false, 1, [mkRec csvRowInvalid], true⟩
    ∧ csvReportedRejections ⟨1, false, 1, [mkRec csvRowInvalid], true⟩ = []
    ∧ ¬ (1 ≤ (csvReportedRejections
        ⟨1, false, 1, [mkRec csvRowInvalid], true⟩).length) := by
  refine ⟨by decide, rfl, by decide⟩

/-- C4, amended: a record whose identity fields are missing or blank after
trimming is never written to storage in either mode — an NDJSON run never
changes the store at any key with an empty component (for any failure
oracle), and a completed CSV run does not either — and in NDJSON mode
(when no fatal batch error occurs) every such parsed record produces
exactly one missing-identity error entry; the CSV pipeline records no
rejection for it. -/
theorem C4_theorem :
    (∀ (mode : Bool) (t : Nat) (bs : ℚ) (oras : List BatchOracle)
        (lines : List Line) (db : Db JsonObj) (k : Key),
        k.1 = "" ∨ k.2 = "" →
        dbFind (ndRun mode t bs oras lines db).db k = dbFind db k)
    ∧ (∀ (mode : Bool) (t : Nat) (bs : ℚ) (oras : List BatchOracle)
        (lines : List Line) (db : Db JsonObj), noFatalOracles oras →
        missingCount (ndRun mode t bs oras lines db).errors
          = ((lines.filterMap objOf).filter (fun r => !validRec r)).length)
    ∧ (∀ (dr mode : Bool) (t : Nat) (rows : List CsvRow) (db : Db NormRec)
        (res : CsvReport × Db NormRec × Nat),
        csvRun dr mode t rows db = some res →
        ∀ k : Key, k.1 = "" ∨ k.2 = "" →
        dbFind res.2.1 k = dbFind db k) := by
  refine ⟨?_, ?_, ?_⟩
  · intro mode t bs oras lines db k hk
    exact ndFold_empty_key mode t bs lines (ndInit db oras) k hk
  · intro mode t bs oras lines db h
    have h2 := ndFold_missing mode t bs lines (ndInit db oras) h
    simpa [ndInit, missingCount] using h2
  · intro dr mode t rows db res hres k hk
    cases dr with
    | true =>
      obtain ⟨rep, heq, _, _, _⟩ := csvRun_dry mode t rows db
      rw [heq] at hres
      have h2 := Option.some_inj.mp hres
      rw [← h2]
    | false =>
      obtain ⟨rep, db2, heq, _, hkp⟩ := csvRun_nonDry mode t rows db
      rw [heq] at hres
      have h2 := Option.some_inj.mp hres
      rw [← h2]
      exact hkp k hk

/-- C4, witness: the amended statement at concrete runs — an NDJSON run on
one identity-less record leaves the store unchanged at an empty key and
records exactly one missing-identity error, and a completed CSV run on one
identity-less row leaves the store unchanged at an empty-slug key. -/
theorem C4_witness :
    dbFind (ndRun true 0 1000 [] [Line.obj sampleNoId] emptyDb).db ("", "")
      = dbFind emptyDb ("", "")
    ∧ missingCount (ndRun true 0 1000 [] [Line.obj sampleNoId] emptyDb).errors = 1
    ∧ dbFind ((⟨1, false, 1, [mkRec csvRowInvalid], true⟩,
        emptyDb, 0) : CsvReport × Db NormRec × Nat).2.1 ("", "x")
      = dbFind emptyDb ("", "x") :=
  ⟨C4_theorem.1 true 0 1000 [] [Line.obj sampleNoId] emptyDb ("", "")
      (Or.inl rfl),
    C4_theorem.2.1 true 0 1000 [] [Line.obj sampleNoId] emptyDb
      (fun o ho => absurd ho (List.not_mem_nil o)),
    C4_theorem.2.2 false true 0 [csvRowInvalid] emptyDb
      (⟨1, false, 1, [mkRec csvRowInvalid], true⟩, emptyDb, 0) rfl
      ("", "x") (Or.inl rfl)⟩

/-- C5, counterexample: the Batcher's buffer holds records that never
passed identity validation.  After the line handler processes a parseable
record lacking both identity fields, the buffer contains exactly that
invalid record. -/
theorem C5_counterexample :
    (List.foldl (ndStep true 0 1000) (ndInit emptyDb [])
      [Line.obj sampleNoId]).buffer = [sampleNoId]
    ∧ validRec sampleNoId = false := by
  refine ⟨by decide, by decide⟩

/-- C5, amended: the NDJSON buffer is filled right after `JSON.parse`,
before any identity validation — validation happens at flush time inside
`insertBatch`: on a failure-free run the final store is the initial store
with exactly the identity-valid parsed records applied, and each parsed
record failing validation contributes one missing-identity error entry. -/
theorem C5_theorem (mode : Bool) (t : Nat) (bs : ℚ) (lines : List Line)
    (db : Db JsonObj) :
    (ndRun mode t bs [] lines db).db
      = List.foldl (upsertObj mode t) db (validObjs lines)
    ∧ missingCount (ndRun mode t bs [] lines db).errors
      = ((lines.filterMap objOf).filter (fun r => !validRec r)).length := by
  constructor
  · have h2 := (ndFold_ok_char mode t bs lines (ndInit db []) rfl).1
    simpa [ndInit, validObjs] using h2
  · have h2 := ndFold_missing mode t bs lines (ndInit db [])
      (fun o ho => absurd ho (List.not_mem_nil o))
    simpa [ndInit, missingCount] using h2

/-- C6, counterexample: the batch-size clamp does not send every
non-positive parameter to 1000 — `batch=-5` yields an effective size of 1 —
and a fractional parameter admits a flushed batch larger than the
effective size: with `batch=2.5` a three-record stream flushes one batch
of 3 records, and `3 <= 5/2` is false. -/
theorem C6_counterexample :
    effBatchSize (some (-5)) = 1
    ∧ (1 : ℚ) ≠ 1000
    ∧ (ndRun true 0 (effBatchSize (some (mkRat 5 2))) []
        [Line.obj sampleA, Line.obj sampleB, Line.obj sampleNoId]
        emptyDb).flushed = [3]
    ∧ ¬ ((3 : ℚ) ≤ effBatchSize (some (mkRat 5 2))) := by
  refine ⟨by decide, by decide, by decide, by decide⟩

/-- C6, amended: the effective batch size always lies in `[1, 5000]`; an
absent (`NaN`) or zero parameter falls back to 1000 while a negative one
clamps to 1; and every batch handed to `insertBatch` has fewer than
`effective + 1` records (at most the ceiling of the effective size, which
equals the effective size whenever it is a positive integer). -/
theorem C6_theorem :
    (∀ p : Option ℚ, 1 ≤ effBatchSize p ∧ effBatchSize p ≤ 5000)
    ∧ effBatchSize none = 1000
    ∧ effBatchSize (some 0) = 1000
    ∧ (∀ x : ℚ, x < 0 → effBatchSize (some x) = 1)
    ∧ (∀ (mode : Bool) (t : Nat) (p : Option ℚ) (oras : List BatchOracle)
        (lines : List Line) (db : Db JsonObj),
        ∀ n ∈ (ndRun mode t (effBatchSize p) oras lines db).flushed,
          (n : ℚ) < effBatchSize p + 1) := by
  have hminle : ∀ y : ℚ, jsMin 5000 y ≤ 5000 := by
    intro y
    unfold jsMin
    by_cases h : (5000 : ℚ) ≤ y
    · rw [if_pos h]
    · rw [if_neg h]
      exact le_of_lt (lt_of_not_le h)
  have hlow : ∀ p : Option ℚ, 1 ≤ effBatchSize p := by
    intro p
    unfold effBatchSize jsMax
    by_cases h : (1 : ℚ) ≤ jsMin 5000 (jsNumOr1000 p)
    · rw [if_pos h]
      exact h
    · rw [if_neg h]
  refine ⟨fun p => ⟨hlow p, ?_⟩, by decide, by decide, ?_, ?_⟩
  · unfold effBatchSize jsMax
    by_cases h : (1 : ℚ) ≤ jsMin 5000 (jsNumOr1000 p)
    · rw [if_pos h]
      exact hminle _
    · rw [if_neg h]
      norm_num
  · intro x hx
    have hx0 : x ≠ 0 := ne_of_lt hx
    unfold effBatchSize jsNumOr1000 jsMin jsMax
    dsimp only
    rw [if_neg hx0]
    rw [if_neg (not_le.mpr (lt_trans hx (by norm_num)))]
    rw [if_neg (not_le.mpr (lt_of_lt_of_le hx (by norm_num)))]
  · intro mode t p oras lines db
    have hbs : 0 < effBatchSize p := lt_of_lt_of_le one_pos (hlow p)
    have h2 := ndFold_bound mode t (effBatchSize p) hbs lines
      (ndInit db oras) (by simpa [ndInit] using hbs)
      (by intro n hn; cases hn)
    exact ndClose_bound mode t (effBatchSize p) _ h2.1 h2.2

/-- C6, witness: the amended statements at concrete parameters — a
negative parameter clamps to 1, and a run with `batch=1` flushes a
one-record batch, below the bound. -/
theorem C6_witness :
    ((-5 : ℚ) < 0 ∧ effBatchSize (some (-5)) = 1)
    ∧ (1 ∈ (ndRun true 0 (effBatchSize (some 1)) [] [Line.obj sampleA]
          emptyDb).flushed
        ∧ ((1 : Nat) : ℚ) < effBatchSize (some 1) + 1) :=
  ⟨⟨by decide, C6_theorem.2.2.2.1 (-5) (by decide)⟩,
    ⟨by decide,
      C6_theorem.2.2.2.2 true 0 (some 1) [] [Line.obj sampleA] emptyDb 1
        (by decide)⟩⟩

/-- C7, counterexample: the position recorded for a malformed line is not
its actual position in the input.  In the stream `[blank, malformed]` the
malformed line is input line 2 but the recorded error position is 1,
because the blank line is skipped without advancing the (only) counter. -/
theorem C7_counterexample :
    rowPositions (ndRun true 0 1000 [] [Line.blank, Line.bad "x"]
      emptyDb).errors = [1]
    ∧ badAbsolutePositions [Line.blank, Line.bad "x"] = [2]
    ∧ ([1] : List Nat) ≠ [2] := by
  refine ⟨by decide, by decide, by decide⟩

/-- C7, amended: blank lines are skipped without being counted (`read` is
exactly the number of non-blank lines), and each malformed line produces
one `invalid JSON` error entry whose recorded position is its 1-based
index among the non-blank lines consumed so far — not its absolute input
position — while decoding continues: every malformed line of the stream
is recorded and every later line still processed, for every failure
oracle. -/
theorem C7_theorem (mode : Bool) (t : Nat) (bs : ℚ) (oras : List BatchOracle)
    (lines : List Line) (db : Db JsonObj) :
    (ndRun mode t bs oras lines db).read = (lines.filter isNonBlank).length
    ∧ rowPositions (ndRun mode t bs oras lines db).errors
      = badNonBlankPositions lines := by
  unfold ndRun
  obtain ⟨hread, hpos⟩ := ndFold_positions mode t bs lines (ndInit db oras)
  obtain ⟨hcr, hcp⟩ := ndClose_read_positions mode t
    (List.foldl (ndStep mode t bs) (ndInit db oras) lines)
  constructor
  · rw [hcr, hread]
    simp [ndInit]
  · rw [hcp, hpos]
    simp [ndInit, rowPositions, badNonBlankPositions]

/-- C8, counterexample: a dry CSV run does not report the count that would
have been written.  On one valid and one invalid row the dry run reports
`parsed = 2` and `previewCount = 2` — its only numeric fields — while the
number of rows a non-dry run would write is 1. -/
theorem C8_counterexample :
    (csvRun true true 0 [csvRowValid, csvRowInvalid] emptyDb).map
        (fun p => (p.1.parsed, p.1.previewCount))
      = some (2, 2)
    ∧ csvWouldWrite [csvRowValid, csvRowInvalid] = 1
    ∧ ¬ ((2 = 1) ∨ (2 = 1)) := by
  refine ⟨by decide, by decide, by decide⟩

/-- C8, amended: a dry CSV run never mutates storage — it returns the
initial store unchanged and executes zero upsert statements — and its
report carries the count of parsed rows (valid and invalid alike), not
the would-write count; a non-dry run on the same rows executes exactly
`csvWouldWrite rows` upsert statements (the identity-valid rows). -/
theorem C8_theorem :
    (∀ (mode : Bool) (t : Nat) (rows : List CsvRow) (db : Db NormRec),
        (csvRun true mode t rows db).map (fun p => p.2.1) = some db
        ∧ (csvRun true mode t rows db).map (fun p => p.1.parsed)
          = some rows.length
        ∧ (csvRun true mode t rows db).map (fun p => p.2.2) = some 0)
    ∧ (∀ (mode : Bool) (t : Nat) (rows : List CsvRow) (db : Db NormRec),
        (csvRun false mode t rows db).map (fun p => p.2.2)
          = some (csvWouldWrite rows)) := by
  constructor
  · intro mode t rows db
    obtain ⟨rep, heq, hp, _, _⟩ := csvRun_dry mode t rows db
    rw [heq]
    exact ⟨rfl, by simp [hp], rfl⟩
  · intro mode t rows db
    obtain ⟨rep, db2, heq, _, _⟩ := csvRun_nonDry mode t rows db
    rw [heq]
    rfl

/-- C9, counterexample: re-importing a byte-identical stream in upsert
mode does not leave storage unchanged.  A single record imported at time 0
and re-imported at time 1 ends with `updated_at` and `updated_row_at`
moved from `now(0)` to `now(1)`. -/
theorem C9_counterexample :
    dbFind (ndRun true 0 1000 [] [Line.obj sampleA] emptyDb).db ("a", "b")
      = some ⟨none, none, TS.now 0, sampleA, TS.now 0, TS.now 0⟩
    ∧ dbFind (ndRun true 1 1000 [] [Line.obj sampleA]
        (ndRun true 0 1000 [] [Line.obj sampleA] emptyDb).db).db ("a", "b")
      = some ⟨none, none, TS.now 1, sampleA, TS.now 0, TS.now 1⟩
    ∧ TS.now 0 ≠ TS.now 1 := by
  refine ⟨by decide, by decide, by decide⟩

/-- C9, amended: on failure-free runs, re-importing a stream in
insert-only mode leaves the store exactly unchanged; in upsert mode
re-importing the identical stream leaves every stored row unchanged in
its `title`, `url`, `payload` and `created_at` columns (and the key set
unchanged) — only the `updated_at` and `updated_row_at` timestamp columns
may move to the second run's `now()`. -/
theorem C9_theorem :
    (∀ (t1 t2 : Nat) (bs : ℚ) (lines : List Line) (db : Db JsonObj),
        (ndRun false t2 bs [] lines
          (ndRun false t1 bs [] lines db).db).db
          = (ndRun false t1 bs [] lines db).db)
    ∧ (∀ (t1 t2 : Nat) (bs : ℚ) (lines : List Line) (db : Db JsonObj)
        (k : Key),
        (dbFind (ndRun true t2 bs [] lines
            (ndRun true t1 bs [] lines db).db).db k).map rowCore
          = (dbFind (ndRun true t1 bs [] lines db).db k).map rowCore) := by
  constructor
  · intro t1 t2 bs lines db
    have h1 : (ndRun false t1 bs [] lines db).db
        = List.foldl (upsertObj false t1) db
            ((lines.filterMap objOf).filter validRec) := by
      have h := (ndFold_ok_char false t1 bs lines (ndInit db []) rfl).1
      simpa [ndRun, ndInit] using h
    have h2 : (ndRun false t2 bs [] lines
          ((ndRun false t1 bs [] lines db).db)).db
        = List.foldl (upsertObj false t2)
            ((ndRun false t1 bs [] lines db).db)
            ((lines.filterMap objOf).filter validRec) := by
      have h := (ndFold_ok_char false t2 bs lines
        (ndInit ((ndRun false t1 bs [] lines db).db) []) rfl).1
      simpa [ndRun, ndInit] using h
    rw [h2]
    apply foldl_insertOnly_id
    intro v hv
    rw [h1]
    exact mem_foldl_upsert_isSome false t1 _ db v hv
  · intro t1 t2 bs lines db k
    have h1 : (ndRun true t1 bs [] lines db).db
        = List.foldl (upsertObj true t1) db
            ((lines.filterMap objOf).filter validRec) := by
      have h := (ndFold_ok_char true t1 bs lines (ndInit db []) rfl).1
      simpa [ndRun, ndInit] using h
    have h2 : (ndRun true t2 bs [] lines
          ((ndRun true t1 bs [] lines db).db)).db
        = List.foldl (upsertObj true t2)
            ((ndRun true t1 bs [] lines db).db)
            ((lines.filterMap objOf).filter validRec) := by
      have h := (ndFold_ok_char true t2 bs lines
        (ndInit ((ndRun true t1 bs [] lines db).db) []) rfl).1
      simpa [ndRun, ndInit] using h
    rw [h2, h1]
    rw [dbFind_foldl_upsert t2 ((lines.filterMap objOf).filter validRec)
      (List.foldl (upsertObj true t1) db
        ((lines.filterMap objOf).filter validRec)) k]
    rw [dbFind_foldl_upsert t1 ((lines.filterMap objOf).filter validRec) db k]
    cases hlt : lastTouch ((lines.filterMap objOf).filter validRec) k with
    | none => rfl
    | some v => simp [rowCore, createdAt0]

/-- C10: in insert-only mode the `inserted` counter counts successfully
executed statements, not rows changed: for every batch it equals the
number of valid records whose statement did not fail (zero when `BEGIN`
fails), for every failure-free run it equals the number of identity-valid
parsed records — including those whose key already exists and whose
`ON CONFLICT DO NOTHING` writes no row — and concretely a run of one
record whose key is already stored reports `inserted = 1` while the
stored row is untouched. -/
theorem C10_theorem :
    (∀ (mode : Bool) (t : Nat) (o : BatchOracle) (recs : List JsonObj)
        (db : Db JsonObj),
        (insertBatch mode t o recs db).2.1
          = if o.failBegin then 0 else succCount o.failRec recs 0)
    ∧ (∀ (t : Nat) (bs : ℚ) (lines : List Line) (db : Db JsonObj),
        (ndRun false t bs [] lines db).inserted = (validObjs lines).length)
    ∧ ((ndRun false 5 1000 [] [Line.obj sampleA]
          (dbSet emptyDb ("a", "b") sampleOldRow)).inserted = 1
        ∧ dbFind (ndRun false 5 1000 [] [Line.obj sampleA]
            (dbSet emptyDb ("a", "b") sampleOldRow)).db ("a", "b")
          = some sampleOldRow) := by
  refine ⟨insertBatch_succCount, ?_, by decide, by decide⟩
  intro t bs lines db
  have h2 := (ndFold_ok_char false t bs lines (ndInit db []) rfl).2
  simpa [ndInit, validObjs] using h2

end JobsBackend

